import Mathlib

/-!
Verification of the succinct indexable dictionary library (Rank9 bit
vector, plain bit vector, wavelet tree) against its specification.

The Rust sources are shallowly embedded: `u64` words are naturals
(assumed `< 2^64` where it matters), unsigned positions and counts are
naturals, signed quantities appearing in the sources (the branchless
shift trick of `Rank9::rank1`) are embedded with `Int` arithmetic, and
panicking operations (out-of-range indexing, failed assertions,
`panic!`) return `Option` with `none` for the panic.
-/

set_option maxHeartbeats 1000000

namespace Succinct

/-- Helper for `popcount`: structural recursion on a fuel argument so
that the kernel can evaluate it; `popcountAux f n` is the popcount of
`n` whenever `n ≤ f`. -/
def popcountAux : Nat → Nat → Nat
  | 0, _ => 0
  | f + 1, n => if n = 0 then 0 else n % 2 + popcountAux f (n / 2)

/-- Model of `u64::count_ones` (popcount) on naturals. -/
def popcount (n : Nat) : Nat := popcountAux n n

theorem popcountAux_zero (f : Nat) : popcountAux f 0 = 0 := by
  cases f <;> simp [popcountAux]

theorem popcountAux_congr : ∀ f g n : Nat, n ≤ f → n ≤ g → popcountAux f n = popcountAux g n := by
  intro f
  induction f using Nat.strong_induction_on with
  | _ f ih =>
    intro g n hf hg
    match f, g, n with
    | _, _, 0 => rw [popcountAux_zero, popcountAux_zero]
    | f + 1, g + 1, n + 1 =>
      simp only [popcountAux, if_neg (Nat.succ_ne_zero n)]
      congr 1
      exact ih f (by omega) g ((n + 1) / 2) (by omega) (by omega)

theorem popcount_zero : popcount 0 = 0 := rfl

theorem popcount_eq (n : Nat) (h : n ≠ 0) : popcount n = n % 2 + popcount (n / 2) := by
  unfold popcount
  cases n with
  | zero => omega
  | succ m =>
    simp only [popcountAux, if_neg (Nat.succ_ne_zero m)]
    congr 1
    exact popcountAux_congr m ((m + 1) / 2) ((m + 1) / 2) (by omega) (le_refl _)

/-- Bit `n` of a word, as the sources read it: `(word >> n) & 1 == 1`. -/
def wordBit (w n : Nat) : Bool := (w >>> n) &&& 1 == 1

theorem popcount_add_mul_pow (k : Nat) :
    ∀ a b : Nat, a < 2 ^ k → popcount (a + b * 2 ^ k) = popcount a + popcount b := by
  induction k with
  | zero =>
    intro a b ha
    interval_cases a
    simp [popcount_zero]
  | succ k ih =>
    intro a b ha
    rcases Nat.eq_zero_or_pos (a + b * 2 ^ (k + 1)) with h0 | hpos
    · have ha0 : a = 0 := by omega
      have hb : b = 0 := by
        have h2 : 0 < 2 ^ (k + 1) := Nat.pos_pow_of_pos _ (by omega)
        nlinarith
      simp [ha0, hb, popcount_zero]
    · rw [popcount_eq _ (by omega)]
      have hmod : (a + b * 2 ^ (k + 1)) % 2 = a % 2 := by
        have h2 : b * 2 ^ (k + 1) = b * 2 ^ k * 2 := by ring
        rw [h2]
        omega
      have hdiv : (a + b * 2 ^ (k + 1)) / 2 = a / 2 + b * 2 ^ k := by
        have h2 : a + b * 2 ^ (k + 1) = a + b * 2 ^ k * 2 := by ring
        rw [h2, Nat.add_mul_div_right _ _ (by omega)]
      rw [hmod, hdiv, ih (a / 2) b (by omega)]
      rcases Nat.eq_zero_or_pos a with ha0 | hapos
      · simp [ha0, popcount_zero]
      · rw [popcount_eq a (by omega)]
        omega

theorem popcount_le_of_lt (k : Nat) : ∀ w : Nat, w < 2 ^ k → popcount w ≤ k := by
  induction k with
  | zero =>
    intro w hw
    interval_cases w
    simp [popcount_zero]
  | succ k ih =>
    intro w hw
    rcases Nat.eq_zero_or_pos w with h0 | hpos
    · simp [h0, popcount_zero]
    · rw [popcount_eq w (by omega)]
      have := ih (w / 2) (by omega)
      omega

/-- Number of set bits among the low `k` bits of `w`. -/
def bitsUpto (w k : Nat) : Nat := (List.range k).countP (fun j => wordBit w j)

theorem wordBit_eq_decide (w n : Nat) : wordBit w n = decide (w / 2 ^ n % 2 = 1) := by
  unfold wordBit
  rw [Nat.shiftRight_eq_div_pow, Nat.and_one_is_mod]
  rcases Nat.mod_two_eq_zero_or_one (w / 2 ^ n) with h | h <;> simp [h]

theorem bitsUpto_succ (w k : Nat) :
    bitsUpto w (k + 1) = bitsUpto w k + (if wordBit w k then 1 else 0) := by
  unfold bitsUpto
  rw [List.range_succ, List.countP_append]
  simp [List.countP_cons]

theorem popcount_one : popcount 1 = 1 := rfl

theorem popcount_mod_pow (w k : Nat) : popcount (w % 2 ^ k) = bitsUpto w k := by
  induction k with
  | zero => simp [bitsUpto, Nat.mod_one, popcount_zero]
  | succ k ih =>
    rw [bitsUpto_succ, ← ih, Nat.mod_pow_succ]
    rw [show (2 : Nat) ^ k * (w / 2 ^ k % 2) = (w / 2 ^ k % 2) * 2 ^ k from Nat.mul_comm _ _]
    rw [popcount_add_mul_pow k _ _ (Nat.mod_lt _ (Nat.pos_pow_of_pos _ (by omega)))]
    rw [wordBit_eq_decide]
    rcases Nat.mod_two_eq_zero_or_one (w / 2 ^ k) with h | h <;>
      simp [h, popcount_zero, popcount_one]

theorem popcount_eq_bitsUpto (w k : Nat) (h : w < 2 ^ k) : popcount w = bitsUpto w k := by
  rw [← popcount_mod_pow, Nat.mod_eq_of_lt h]

theorem bitsUpto_le (w k : Nat) : bitsUpto w k ≤ k := by
  unfold bitsUpto
  calc (List.range k).countP (fun j => wordBit w j) ≤ (List.range k).length :=
        List.countP_le_length _
    _ = k := List.length_range k

/-! Word-level dictionary operations from `src/dictionary.rs`. -/

/-- Rust: `impl Access<bool> for u64`. Note the inverted range test in the
source: indices below 64 yield `false` and the stored bit is only read
for `n ≥ 64`. -/
def u64get (x n : Nat) : Bool :=
  if n < 64 then false else (x >>> n) &&& 1 == 1

/-- Rust: `impl BitRank for u64`, `rank1`. -/
def u64rank1 (x n : Nat) : Nat :=
  if n < 64 then popcount (x &&& ((1 <<< n) - 1)) else popcount x

/-- Loop body of `impl Select<bool> for u64`: scan bits from the least
significant end; on the `n`-th match return the position after it.
The `panic!` after 64 iterations is `none`; `fuel` is the remaining
iteration count. -/
def u64selectGo (bit : Bool) : Nat → Nat → Nat → Nat → Option Nat
  | _, _, _, 0 => none
  | x, n, idx, fuel + 1 =>
    if ((x &&& 1) == 1) == bit then
      if n - 1 = 0 then some (idx + 1)
      else u64selectGo bit (x >>> 1) (n - 1) (idx + 1) fuel
    else u64selectGo bit (x >>> 1) n (idx + 1) fuel

/-- Rust: `impl Select<bool> for u64`. -/
def u64select (x : Nat) (bit : Bool) (n0 : Nat) : Option Nat :=
  if n0 = 0 then some 0 else u64selectGo bit x n0 0 64

/-- Number of bits equal to `b` among the low `k` bits of `x`. -/
def matchCount (x : Nat) (b : Bool) (k : Nat) : Nat :=
  (List.range k).countP (fun j => wordBit x j == b)

theorem matchCount_true (x k : Nat) : matchCount x true k = bitsUpto x k := by
  unfold matchCount bitsUpto
  congr 1
  funext j
  simp

theorem matchCount_succ (x : Nat) (b : Bool) (k : Nat) :
    matchCount x b (k + 1) = matchCount x b k + (if wordBit x k == b then 1 else 0) := by
  unfold matchCount
  rw [List.range_succ, List.countP_append]
  simp [List.countP_cons]

theorem matchCount_le (x : Nat) (b : Bool) (k : Nat) : matchCount x b k ≤ k := by
  unfold matchCount
  calc (List.range k).countP _ ≤ (List.range k).length := List.countP_le_length _
    _ = k := List.length_range k

theorem matchCount_mono (x : Nat) (b : Bool) {j k : Nat} (h : j ≤ k) :
    matchCount x b j ≤ matchCount x b k := by
  unfold matchCount
  exact List.Sublist.countP_le _ (List.range_sublist.mpr h)

theorem wordBit_shift (x j : Nat) : wordBit (x >>> 1) j = wordBit x (j + 1) := by
  rw [wordBit_eq_decide, wordBit_eq_decide]
  rw [Nat.shiftRight_eq_div_pow, Nat.div_div_eq_div_mul]
  have hp : (2 : Nat) ^ 1 * 2 ^ j = 2 ^ (j + 1) := by
    rw [← pow_add, Nat.add_comm]
  rw [hp]

theorem matchCount_shift (x : Nat) (b : Bool) (k : Nat) :
    matchCount x b (k + 1) =
      (if wordBit x 0 == b then 1 else 0) + matchCount (x >>> 1) b k := by
  induction k with
  | zero =>
    rw [matchCount_succ]
    have h0 : matchCount x b 0 = 0 := rfl
    have h1 : matchCount (x >>> 1) b 0 = 0 := rfl
    omega
  | succ k ih =>
    rw [matchCount_succ, ih, matchCount_succ, wordBit_shift]
    omega

/-- Number of matches of a bit value among the first `k` positions of a
boolean sequence given as a function. -/
def countB (f : Nat → Bool) (b : Bool) (k : Nat) : Nat :=
  (List.range k).countP (fun j => f j == b)

theorem countB_zero (f : Nat → Bool) (b : Bool) : countB f b 0 = 0 := rfl

theorem countB_succ (f : Nat → Bool) (b : Bool) (k : Nat) :
    countB f b (k + 1) = countB f b k + (if f k == b then 1 else 0) := by
  unfold countB
  rw [List.range_succ, List.countP_append]
  simp [List.countP_cons]

theorem countB_mono (f : Nat → Bool) (b : Bool) {j k : Nat} (h : j ≤ k) :
    countB f b j ≤ countB f b k := by
  unfold countB
  exact List.Sublist.countP_le _ (List.range_sublist.mpr h)

theorem countB_le (f : Nat → Bool) (b : Bool) (k : Nat) : countB f b k ≤ k := by
  unfold countB
  calc (List.range k).countP _ ≤ (List.range k).length := List.countP_le_length _
    _ = k := List.length_range k

theorem countB_true_add_false (f : Nat → Bool) (k : Nat) :
    countB f true k + countB f false k = k := by
  induction k with
  | zero => rfl
  | succ k ih =>
    rw [countB_succ, countB_succ]
    cases h : f k <;> simp [h] <;> omega

theorem matchCount_eq_countB (x : Nat) (b : Bool) (k : Nat) :
    matchCount x b k = countB (wordBit x) b k := rfl

/-- Positions where the counted prefix grows are matches, and a match
position is determined by its prefix count: if positions `q1 < q2` both
hold `b` then the prefix counts through them differ. -/
theorem countB_step_of_match (f : Nat → Bool) (b : Bool) (q : Nat) (h : f q = b) :
    countB f b (q + 1) = countB f b q + 1 := by
  rw [countB_succ, h]
  simp

theorem countB_match_unique (f : Nat → Bool) (b : Bool) (q1 q2 : Nat)
    (h1 : f q1 = b) (h2 : f q2 = b)
    (he : countB f b (q1 + 1) = countB f b (q2 + 1)) : q1 = q2 := by
  rcases Nat.lt_trichotomy q1 q2 with hlt | heq | hgt
  · exfalso
    have hm : countB f b (q1 + 1) ≤ countB f b q2 := countB_mono f b (by omega)
    rw [countB_step_of_match f b q2 h2] at he
    omega
  · exact heq
  · exfalso
    have hm : countB f b (q2 + 1) ≤ countB f b q1 := countB_mono f b (by omega)
    rw [countB_step_of_match f b q1 h1] at he
    omega

/-! Correctness of the word-level select scan. -/

theorem wordBit_zero_eq (x : Nat) : wordBit x 0 = ((x &&& 1) == 1) := by
  unfold wordBit
  rfl

theorem u64selectGo_spec (b : Bool) :
    ∀ fuel x n idx, 1 ≤ n → n ≤ matchCount x b fuel →
      ∃ q, q < fuel ∧ matchCount x b (q + 1) = n ∧ wordBit x q = b ∧
        u64selectGo b x n idx fuel = some (idx + q + 1) := by
  intro fuel
  induction fuel with
  | zero =>
    intro x n idx h1 h2
    have : matchCount x b 0 = 0 := rfl
    omega
  | succ fuel ih =>
    intro x n idx h1 h2
    rw [matchCount_shift] at h2
    by_cases hhit : ((x &&& 1) == 1) == b
    · have hb0 : wordBit x 0 = b := by
        rw [wordBit_zero_eq]
        exact eq_of_beq hhit
      have hif : (if wordBit x 0 == b then 1 else 0) = 1 := by simp [hb0]
      rcases Nat.eq_or_lt_of_le h1 with h1' | h1'

      · refine ⟨0, by omega, ?_, hb0, ?_⟩
        · rw [matchCount_shift]
          have : matchCount (x >>> 1) b 0 = 0 := rfl
          omega
        · unfold u64selectGo
          rw [if_pos hhit, if_pos (by omega)]
      · have h2' : n - 1 ≤ matchCount (x >>> 1) b fuel := by omega
        obtain ⟨q, hq, hcnt, hbit, hres⟩ := ih (x >>> 1) (n - 1) (idx + 1) (by omega) h2'
        refine ⟨q + 1, by omega, ?_, ?_, ?_⟩
        · rw [matchCount_shift, hif, hcnt]
          omega
        · rw [← wordBit_shift]
          exact hbit
        · unfold u64selectGo
          rw [if_pos hhit, if_neg (by omega), hres]
          congr 1
          omega
    · have hb0 : ¬ (wordBit x 0 == b) := by
        rw [wordBit_zero_eq]
        exact fun hc => hhit hc
      have hif : (if wordBit x 0 == b then 1 else 0) = 0 := by simp at hb0 ⊢; exact hb0
      have h2' : n ≤ matchCount (x >>> 1) b fuel := by omega
      obtain ⟨q, hq, hcnt, hbit, hres⟩ := ih (x >>> 1) n (idx + 1) h1 h2'
      refine ⟨q + 1, by omega, ?_, ?_, ?_⟩
      · rw [matchCount_shift, hif, hcnt]
        omega
      · rw [← wordBit_shift]
        exact hbit
      · unfold u64selectGo
        rw [if_neg hhit, hres]
        congr 1
        omega

theorem u64select_spec (x : Nat) (b : Bool) (n : Nat) (h1 : 1 ≤ n)
    (h2 : n ≤ matchCount x b 64) :
    ∃ q, q < 64 ∧ matchCount x b (q + 1) = n ∧ wordBit x q = b ∧
      u64select x b n = some (q + 1) := by
  obtain ⟨q, hq, hcnt, hbit, hres⟩ := u64selectGo_spec b 64 x n 0 h1 h2
  exact ⟨q, hq, hcnt, hbit, by rw [u64select, if_neg (by omega)]; simpa using hres⟩

/-! The plain bit vector from `src/bit_vector.rs`. -/

/-- The plain packed bit vector: `bits` is the length in bits, `buffer`
the vector of broadwords. -/
structure BitVector where
  bits : Nat
  buffer : List Nat

/-- Rust: `BitVector::from_vec`. -/
def BitVector.from_vec (v : List Nat) (length_in_bits : Nat) : BitVector :=
  ⟨length_in_bits, v⟩

/-- Rust: `impl Access<bool> for BitVector`; an out-of-range buffer index
panics (`none`). -/
def BitVector.get (bv : BitVector) (n : Nat) : Option Bool :=
  (bv.buffer[n / 64]?).map (fun w => wordBit w (n % 64))

/-- Rust: `BitVector::rank1`. The source asserts `n < bits` (strictly),
sums `rank1(64)` over the words before position `n`, and, guarded by a
second `n < len` test, adds the partial word contribution. -/
def BitVector.rank1 (bv : BitVector) (n : Nat) : Option Nat :=
  if n < bv.bits then
    let rank := ((bv.buffer.take (n / 64)).map (fun w => u64rank1 w 64)).sum
    if n < bv.bits then
      (bv.buffer[n / 64]?).map (fun w => rank + u64rank1 w (n % 64))
    else some rank
  else none

/-- Rust: `BitVector::rank0`, defined as `n - rank1(n)` on signed ints. -/
def BitVector.rank0 (bv : BitVector) (n : Nat) : Option Int :=
  (bv.rank1 n).map (fun r => (n : Int) - (r : Int))

/-- Rust: `impl Rank<bool> for BitVector`. -/
def BitVector.rank (bv : BitVector) (el : Bool) (n : Nat) : Option Int :=
  if el then (bv.rank1 n).map (fun r => (r : Int)) else bv.rank0 n

/-- Word scan of `BitVector::select`: find the word holding the `n`-th
matching bit; returns the current word, the remaining count and the bit
offset accumulated so far, exactly as the source loop leaves `cur`,
`remain` and `idx`. -/
def bvSelectGo (bit : Bool) : List Nat → Nat → Nat → Nat → Nat × Nat × Nat
  | [], cur, remain, idx => (cur, remain, idx)
  | w :: ws, _, remain, idx =>
    let m := if bit then popcount w else 64 - popcount w
    if remain > m then bvSelectGo bit ws w (remain - m) (idx + 64)
    else (w, remain, idx)

/-- Rust: `impl Select<bool> for BitVector`. -/
def BitVector.select (bv : BitVector) (bit : Bool) (n : Nat) : Option Nat :=
  if n = 0 then some 0
  else
    let res := bvSelectGo bit bv.buffer 0 n 0
    (u64select res.1 bit res.2.1).map (fun s => res.2.2 + s)

/-! The naive oracle from `src/naive.rs`, reading bits through the
buffer exactly as `Access<bool>` for `BitVector` / `Rank9` does. -/

/-- Bit `n` of a packed buffer (the `Access<bool>` impls of `BitVector`
and `Rank9`); positions beyond the buffer read a zero word. -/
def bufGet (buffer : List Nat) (n : Nat) : Bool :=
  wordBit (buffer.getD (n / 64) 0) (n % 64)

/-- Rust: `naive::rank`; asserts `n ≤ len`, clamps with `min`, and counts
matching bits below `n`. -/
def naiveRank (buffer : List Nat) (bits : Nat) (b : Bool) (n : Nat) : Option Nat :=
  if n ≤ bits then some (countB (bufGet buffer) b (min n bits)) else none

/-- Scan loop of `naive::select`: `rem` is the number of positions still
to visit, `i` the current position. -/
def naiveSelectGo (buffer : List Nat) (b : Bool) : Nat → Nat → Nat → Option Nat
  | _, _, 0 => none
  | n, i, rem + 1 =>
    if bufGet buffer i == b then
      if n - 1 = 0 then some (i + 1) else naiveSelectGo buffer b (n - 1) (i + 1) rem
    else naiveSelectGo buffer b n (i + 1) rem

/-- Rust: `naive::select`; returns `Some 0` for `n = 0` and otherwise the
position just after the `n`-th matching bit, `None` when there are fewer
than `n` matches. -/
def naiveSelect (buffer : List Nat) (bits : Nat) (b : Bool) (n : Nat) : Option Nat :=
  if n = 0 then some 0 else naiveSelectGo buffer b n 0 bits

theorem naiveSelectGo_spec (buffer : List Nat) (b : Bool) :
    ∀ rem i n, 1 ≤ n →
      countB (bufGet buffer) b i + n ≤ countB (bufGet buffer) b (i + rem) →
      ∃ q, i ≤ q ∧ q < i + rem ∧
        countB (bufGet buffer) b (q + 1) = countB (bufGet buffer) b i + n ∧
        bufGet buffer q = b ∧
        naiveSelectGo buffer b n i rem = some (q + 1) := by
  intro rem
  induction rem with
  | zero =>
    intro i n h1 h2
    rw [Nat.add_zero] at h2
    omega
  | succ rem ih =>
    intro i n h1 h2
    have hstep : countB (bufGet buffer) b (i + 1) =
        countB (bufGet buffer) b i + (if bufGet buffer i == b then 1 else 0) :=
      countB_succ _ _ _
    by_cases hhit : bufGet buffer i == b
    · have hb : bufGet buffer i = b := eq_of_beq hhit
      rcases Nat.eq_or_lt_of_le h1 with h1' | h1'
      · refine ⟨i, le_refl _, by omega, ?_, hb, ?_⟩
        · rw [hstep, if_pos hhit]
          omega
        · unfold naiveSelectGo
          rw [if_pos hhit, if_pos (by omega)]
      · have h2' : countB (bufGet buffer) b (i + 1) + (n - 1) ≤
            countB (bufGet buffer) b ((i + 1) + rem) := by
          rw [hstep, if_pos hhit]
          have : i + 1 + rem = i + (rem + 1) := by omega
          rw [this]
          omega
        obtain ⟨q, hq1, hq2, hcnt, hbit, hres⟩ := ih (i + 1) (n - 1) (by omega) h2'
        refine ⟨q, by omega, by omega, ?_, hbit, ?_⟩
        · rw [hcnt, hstep, if_pos hhit]
          omega
        · unfold naiveSelectGo
          rw [if_pos hhit, if_neg (by omega)]
          exact hres
    · have h2' : countB (bufGet buffer) b (i + 1) + n ≤
          countB (bufGet buffer) b ((i + 1) + rem) := by
        rw [hstep, if_neg hhit]
        have : i + 1 + rem = i + (rem + 1) := by omega
        rw [this]
        omega
      obtain ⟨q, hq1, hq2, hcnt, hbit, hres⟩ := ih (i + 1) n h1 h2'
      refine ⟨q, by omega, by omega, ?_, hbit, ?_⟩
      · rw [hcnt, hstep, if_neg hhit]
        omega
      · unfold naiveSelectGo
        rw [if_neg hhit]
        exact hres

theorem naiveSelect_spec (buffer : List Nat) (bits : Nat) (b : Bool) (n : Nat)
    (h1 : 1 ≤ n) (h2 : n ≤ countB (bufGet buffer) b bits) :
    ∃ q, q < bits ∧ countB (bufGet buffer) b (q + 1) = n ∧ bufGet buffer q = b ∧
      naiveSelect buffer bits b n = some (q + 1) := by
  have h2' : countB (bufGet buffer) b 0 + n ≤ countB (bufGet buffer) b (0 + bits) := by
    rw [countB_zero]
    simpa using h2
  obtain ⟨q, _, hq2, hcnt, hbit, hres⟩ := naiveSelectGo_spec buffer b bits 0 n h1 h2'
  refine ⟨q, by omega, ?_, hbit, ?_⟩
  · rw [hcnt, countB_zero]
    omega
  · rw [naiveSelect, if_neg (by omega)]
    exact hres

/-! Decomposing bit-level prefix counts into word popcounts. -/

/-- Total number of set bits in a list of words. -/
def totalOnes (l : List Nat) : Nat := (l.map popcount).sum

theorem totalOnes_nil : totalOnes [] = 0 := rfl

theorem totalOnes_append (l1 l2 : List Nat) :
    totalOnes (l1 ++ l2) = totalOnes l1 + totalOnes l2 := by
  unfold totalOnes
  rw [List.map_append, List.sum_append]

theorem totalOnes_take_succ (l : List Nat) (q : Nat) (hq : q < l.length) :
    totalOnes (l.take (q + 1)) = totalOnes (l.take q) + popcount (l.getD q 0) := by
  rw [List.take_succ, totalOnes_append]
  congr 1
  have h : l[q]? = some l[q] := List.getElem?_eq_getElem hq
  rw [List.getD_eq_getElem?_getD, h]
  simp [totalOnes]

theorem countB_true_decomp (buffer : List Nat) (hb : ∀ w ∈ buffer, w < 2 ^ 64) :
    ∀ i, i ≤ 64 * buffer.length →
      countB (bufGet buffer) true i =
        totalOnes (buffer.take (i / 64)) + bitsUpto (buffer.getD (i / 64) 0) (i % 64) := by
  intro i
  induction i with
  | zero => intro _; rfl
  | succ i ih =>
    intro hi
    rw [countB_succ, ih (by omega)]
    have hg : bufGet buffer i = wordBit (buffer.getD (i / 64) 0) (i % 64) := rfl
    by_cases h64 : (i + 1) % 64 = 0
    · have hq : i / 64 = (i + 1) / 64 - 1 := by omega
      set q := i / 64 with hqdef
      have hq1 : (i + 1) / 64 = q + 1 := by omega
      have hm : i % 64 = 63 := by omega
      have hqlen : q < buffer.length := by omega
      have hw : buffer.getD q 0 < 2 ^ 64 := by
        have : buffer.getD q 0 = buffer[q] := by
          rw [List.getD_eq_getElem?_getD, List.getElem?_eq_getElem hqlen]
          rfl
        rw [this]
        exact hb _ (List.getElem_mem hqlen)
      rw [hq1, h64, hm]
      rw [totalOnes_take_succ buffer q hqlen]
      have hb64 : bitsUpto (buffer.getD q 0) 63 +
          (if wordBit (buffer.getD q 0) 63 then 1 else 0) = popcount (buffer.getD q 0) := by
        rw [← bitsUpto_succ, ← popcount_eq_bitsUpto _ 64 hw]
      have hcase : (if bufGet buffer i == true then 1 else 0) =
          (if wordBit (buffer.getD q 0) 63 then 1 else 0) := by
        rw [hg, hm]
        cases hbit : wordBit (buffer.getD q 0) 63 <;> simp [hbit]
      rw [hcase]
      have : bitsUpto (buffer.getD (q + 1) 0) 0 = 0 := rfl
      omega
    · have hq : (i + 1) / 64 = i / 64 := by omega
      have hm : (i + 1) % 64 = i % 64 + 1 := by omega
      rw [hq, hm, bitsUpto_succ]
      have hcase : (if bufGet buffer i == true then 1 else 0) =
          (if wordBit (buffer.getD (i / 64) 0) (i % 64) then 1 else 0) := by
        rw [hg]
        cases hbit : wordBit (buffer.getD (i / 64) 0) (i % 64) <;> simp [hbit]
      omega

theorem u64rank1_full (w : Nat) : u64rank1 w 64 = popcount w := by
  rw [u64rank1, if_neg (by omega)]

theorem u64rank1_partial (w k : Nat) (hk : k < 64) :
    u64rank1 w k = bitsUpto w k := by
  rw [u64rank1, if_pos hk]
  have h1 : (1 : Nat) <<< k = 2 ^ k := by
    rw [Nat.shiftLeft_eq, one_mul]
  rw [h1, Nat.and_pow_two_sub_one_eq_mod, popcount_mod_pow]

theorem getD_eq_of_lt (l : List Nat) (q : Nat) (hq : q < l.length) :
    l.getD q 0 = l[q] := by
  rw [List.getD_eq_getElem?_getD, List.getElem?_eq_getElem hq]
  rfl

/-- Correctness of `BitVector::rank1` on a vector-built bit vector:
for `n < bits` it counts the set bits below position `n`. -/
theorem BitVector.rank1_eval (v : List Nat) (hb : ∀ w ∈ v, w < 2 ^ 64) (n : Nat)
    (hn : n < 64 * v.length) :
    (BitVector.from_vec v (64 * v.length)).rank1 n = some (countB (bufGet v) true n) := by
  have hq : n / 64 < v.length := by omega
  rw [BitVector.rank1]
  simp only [BitVector.from_vec]
  rw [if_pos hn, if_pos hn]
  rw [List.getElem?_eq_getElem hq]
  have hmap : ((v.take (n / 64)).map (fun w => u64rank1 w 64)).sum =
      totalOnes (v.take (n / 64)) := by
    unfold totalOnes
    exact congrArg List.sum (List.map_congr_left (fun w _ => u64rank1_full w))
  have hpart : u64rank1 v[n / 64] (n % 64) = bitsUpto v[n / 64] (n % 64) :=
    u64rank1_partial _ _ (by omega)
  rw [countB_true_decomp v hb n (by omega)]
  rw [getD_eq_of_lt v (n / 64) hq]
  simp only [Option.map, Option.bind, hmap, hpart]

/-! The Rank9 bit vector from `src/rank9.rs`. -/

/-- Counts for a basic block: the rank up to the block and the seven
packed 9-bit within-block word ranks. -/
structure Counts where
  _block_rank : Nat
  word_ranks : Nat
deriving DecidableEq

instance : Inhabited Counts := ⟨⟨0, 0⟩⟩

/-- Rust: `Counts::word_rank` — rank within the block up to but not
including the `i`-th broadword. -/
def Counts.word_rank (c : Counts) (bit : Bool) (i : Nat) : Nat :=
  match i with
  | 0 => 0
  | _ =>
    let ones := (c.word_ranks >>> (9 * (i - 1))) &&& 0x1ff
    if bit then ones else i * 64 - ones

/-- Rust: `Counts::block_rank` — matching bits in blocks before
`block_idx`. -/
def Counts.block_rank (c : Counts) (bit : Bool) (block_idx : Nat) : Nat :=
  if bit then c._block_rank else 64 * 8 * block_idx - c._block_rank

/-- Loop of `Counts::select_word`: first `i < 7` whose next word rank
reaches `n`, defaulting to 7; `fuel` counts the remaining iterations. -/
def selectWordGo (c : Counts) (bit : Bool) (n : Nat) : Nat → Nat → Nat
  | _, 0 => 7
  | i, fuel + 1 => if n ≤ c.word_rank bit (i + 1) then i else selectWordGo c bit n (i + 1) fuel

/-- Rust: `Counts::select_word`. -/
def Counts.select_word (c : Counts) (bit : Bool) (n : Nat) : Nat :=
  selectWordGo c bit n 0 7

/-- The Rank9 structure: bit length, broadword buffer, per-block counts. -/
structure Rank9 where
  bits : Nat
  buffer : List Nat
  counts : List Counts

/-- Rust: `impl Access<bool> for Rank9`. -/
def Rank9.get (r : Rank9) (n : Nat) : Option Bool :=
  (r.buffer[n / 64]?).map (fun w => wordBit w (n % 64))

/-- The branchless shift of `Rank9::rank1`: on signed 64-bit values,
`(t + ((t >> 60) & 8)) * 9` for `t = block_word - 1`, then cast to an
unsigned shift amount. The arithmetic right shift is a flooring
division and the AND with 8 acts on the two's-complement encoding. -/
def rank1Shift (block_word : Nat) : Nat :=
  let t : Int := (block_word : Int) - 1
  let s : Nat := ((t.fdiv (2 ^ 60)).emod (2 ^ 64)).toNat
  let shift : Int := (t + ((s &&& 8 : Nat) : Int)) * 9
  (shift.emod (2 ^ 64)).toNat

/-- Rust: `Rank9::rank1`. The source asserts `n ≤ bits`, clamps with
`min`, reads the block counts and the word, and also dynamically checks
(`assert_eq!`) that the branchless second-level lookup agrees with
`Counts::word_rank`; assertion failures and out-of-range indexing are
`none`. -/
def Rank9.rank1 (r : Rank9) (n : Nat) : Option Nat :=
  if n ≤ r.bits then
    let n' := min n r.bits
    let word := n' / 64
    let bit_idx := n' % 64
    let block := word / 8
    let block_word := word % 8
    match r.counts[block]? with
    | none => none
    | some counts =>
      let word_rank := (counts.word_ranks >>> rank1Shift block_word) &&& 0x1ff
      if block_word ≠ 0 ∧ counts.word_rank true block_word ≠ word_rank then none
      else
        match r.buffer[word]? with
        | none => none
        | some w =>
          some ((counts._block_rank + word_rank + popcount (w &&& ((1 <<< bit_idx) - 1))) % 2 ^ 64)
  else none

/-- Rust: `Rank9::rank0`, defined as `n - rank1(n)` on signed ints. -/
def Rank9.rank0 (r : Rank9) (n : Nat) : Option Int :=
  (r.rank1 n).map (fun k => (n : Int) - (k : Int))

/-- Rust: `impl Rank<bool> for Rank9`. -/
def Rank9.rank (r : Rank9) (el : Bool) (n : Nat) : Option Int :=
  if el then (r.rank1 n).map (fun k => (k : Int)) else r.rank0 n

/-- Loop of the generic `binary_search` in `src/rank9.rs`: `base` and
`lim` evolve exactly as in the source (`lim` is halved each round, with
an extra decrement on the `Less` branch). -/
def binarySearchGo (cmp : Nat → Ordering) (lower : Nat) : Nat → Nat → Except Nat Nat
  | base, lim =>
    if h : lim > lower then
      let ix := base + (lim >>> 1)
      match cmp ix with
      | Ordering.eq => Except.ok ix
      | Ordering.lt => binarySearchGo cmp lower (ix + 1) ((lim - 1) >>> 1)
      | Ordering.gt => binarySearchGo cmp lower base (lim >>> 1)
    else Except.error base
termination_by _ lim => lim
decreasing_by
  all_goals simp [Nat.shiftRight_eq_div_pow] <;> omega

/-- Rust: `binary_search(cmp, lower, upper)`. -/
def binary_search (cmp : Nat → Ordering) (lower upper : Nat) : Except Nat Nat :=
  binarySearchGo cmp lower lower upper

/-- Backward scan of `Rank9::select_block_hlpr` after an exact binary
search hit: walk down from `start_block` to 0 until a block whose rank
differs from `n`; if the loop exhausts, fall through to
`counts.len() - 1`. -/
def selectBlockScan (r : Rank9) (bit : Bool) (n : Nat) : Nat → Nat
  | block_idx =>
    if (r.counts.getD block_idx default).block_rank bit block_idx ≠ n then block_idx
    else if block_idx = 0 then r.counts.length - 1
    else selectBlockScan r bit n (block_idx - 1)

/-- Rust: `Rank9::select_block_hlpr` (comparing block ranks against `n`
over the index range `[lower, upper)`). On `Err(i)` the source returns
`i - 1` on the unsigned index type, modelled with the wrap-around. -/
def Rank9.select_block_hlpr (r : Rank9) (bit : Bool) (n lower upper : Nat) : Nat :=
  match binary_search
      (fun idx => compare ((r.counts.getD idx default).block_rank bit idx) n) lower upper with
  | Except.ok block => selectBlockScan r bit n block
  | Except.error i => (i + (2 ^ 64 - 1)) % 2 ^ 64

/-- Rust: `Rank9::select_block`. -/
def Rank9.select_block (r : Rank9) (bit : Bool) (n : Nat) : Nat :=
  r.select_block_hlpr bit n 0 r.counts.length

/-- Rust: `impl Select<bool> for Rank9` (the two-stage laura-select). -/
def Rank9.select (r : Rank9) (bit : Bool) (n : Nat) : Option Nat :=
  if n = 0 then some 0
  else
    let block_idx := r.select_block bit n
    match r.counts[block_idx]? with
    | none => none
    | some counts =>
      let remaining := n - counts.block_rank bit block_idx
      let word_idx := counts.select_word bit remaining
      match r.buffer[word_idx + 8 * block_idx]? with
      | none => none
      | some word =>
        let remaining2 := remaining - counts.word_rank bit word_idx
        (u64select word bit remaining2).map
          (fun s => block_idx * 64 * 8 + word_idx * 64 + s)

/-- Builder state of `rank9::build::CountsBuilder`. -/
structure CountsBuilder where
  length : Nat
  counts : List Counts
  accum : Counts
  block_accum : Nat
  rank_accum : Nat

/-- Rust: `CountsBuilder::with_capacity` (the capacity only sizes the
allocation; the state is zero-initialised). -/
def CountsBuilder.init : CountsBuilder :=
  ⟨0, [], ⟨0, 0⟩, 0, 0⟩

/-- Rust: `CountsBuilder::push` (including `push_block` on the eighth
word of a block); `u64` arithmetic is taken modulo `2^64`. -/
def CountsBuilder.push (b : CountsBuilder) (word : Nat) : CountsBuilder :=
  let ones := popcount word
  let rank_accum := (b.rank_accum + ones) % 2 ^ 64
  let block_accum := (b.block_accum + ones) % 2 ^ 64
  if b.length % 8 == 7 then
    { length := b.length + 1
      counts := b.counts ++ [b.accum]
      accum := ⟨rank_accum, 0⟩
      block_accum := 0
      rank_accum := rank_accum }
  else
    { length := b.length + 1
      counts := b.counts
      accum := ⟨b.accum._block_rank,
                (b.accum.word_ranks >>> 9) ||| ((block_accum <<< (9 * 6)) % 2 ^ 64)⟩
      block_accum := block_accum
      rank_accum := rank_accum }

/-- Zero-padding loop of `CountsBuilder::finish`; `k` is the number of
zero words still to push. -/
def CountsBuilder.finishAux : Nat → CountsBuilder → List Counts
  | 0, b => b.counts
  | k + 1, b => CountsBuilder.finishAux k (b.push 0)

/-- Rust: `CountsBuilder::finish` — pad with zero words until the length
is a multiple of 8, then return the counts. -/
def CountsBuilder.finish (b : CountsBuilder) : List Counts :=
  CountsBuilder.finishAux ((8 - b.length % 8) % 8) b

/-- The counts array built from a word vector. -/
def countsBuild (v : List Nat) : List Counts :=
  (v.foldl CountsBuilder.push CountsBuilder.init).finish

/-- Rust: `Rank9::from_vec`. -/
def Rank9.from_vec (v : List Nat) (length_in_bits : Nat) : Rank9 :=
  ⟨length_in_bits, v, countsBuild v⟩

/-! Characterisation of the counts builder. -/

/-- Value of a word packing 9-bit fields, field `k` at bit offset `9k`. -/
def lowPack (cs : List Nat) : Nat := cs.foldr (fun c acc => c + 2 ^ 9 * acc) 0

theorem lowPack_nil : lowPack [] = 0 := rfl

theorem lowPack_cons (c : Nat) (cs : List Nat) :
    lowPack (c :: cs) = c + 2 ^ 9 * lowPack cs := rfl

theorem lowPack_concat (cs : List Nat) (c : Nat) :
    lowPack (cs ++ [c]) = lowPack cs + c * 2 ^ (9 * cs.length) := by
  induction cs with
  | nil => simp [lowPack_nil, lowPack_cons, lowPack]
  | cons d cs ih =>
    rw [List.cons_append, lowPack_cons, lowPack_cons, ih]
    rw [List.length_cons]
    ring

theorem lowPack_lt (cs : List Nat) (h : ∀ c ∈ cs, c < 2 ^ 9) :
    lowPack cs < 2 ^ (9 * cs.length) := by
  induction cs with
  | nil => simp [lowPack_nil]
  | cons c cs ih =>
    rw [lowPack_cons, List.length_cons]
    have hc : c < 2 ^ 9 := h c (List.mem_cons_self _ _)
    have hcs : lowPack cs < 2 ^ (9 * cs.length) := ih (fun d hd => h d (List.mem_cons_of_mem _ hd))
    have hpow : 2 ^ (9 * (cs.length + 1)) = 2 ^ 9 * 2 ^ (9 * cs.length) := by
      rw [← pow_add]
      ring_nf
    rw [hpow]
    nlinarith

theorem lowPack_extract (cs : List Nat) (h : ∀ c ∈ cs, c < 2 ^ 9) :
    ∀ k, k < cs.length → lowPack cs / 2 ^ (9 * k) % 2 ^ 9 = cs.getD k 0 := by
  induction cs with
  | nil => intro k hk; simp at hk
  | cons c cs ih =>
    intro k hk
    cases k with
    | zero =>
      rw [lowPack_cons]
      simp only [Nat.mul_zero, pow_zero, Nat.div_one, List.getD_cons_zero]
      rw [Nat.add_mul_mod_self_left]
      exact Nat.mod_eq_of_lt (h c (List.mem_cons_self _ _))
    | succ k =>
      rw [lowPack_cons, List.getD_cons_succ]
      have hsplit : (2 : Nat) ^ (9 * (k + 1)) = 2 ^ 9 * 2 ^ (9 * k) := by
        rw [← pow_add]
        ring_nf
      rw [hsplit, ← Nat.div_div_eq_div_mul]
      have hdiv : (c + 2 ^ 9 * lowPack cs) / 2 ^ 9 = lowPack cs := by
        rw [Nat.add_mul_div_left _ _ (by positivity)]
        rw [Nat.div_eq_of_lt (h c (List.mem_cons_self _ _))]
        omega
      rw [hdiv]
      exact ih (fun d hd => h d (List.mem_cons_of_mem _ hd)) k (by simpa using hk)

theorem mul_pow_mod_two (c k j : Nat) (hj : j < k) : c * 2 ^ (k - j) % 2 = 0 := by
  have hexp : (2 : Nat) ^ (k - j) = 2 * 2 ^ (k - j - 1) := by
    rw [← pow_succ']
    congr 1
    omega
  rw [hexp, show c * (2 * 2 ^ (k - j - 1)) = 2 * (c * 2 ^ (k - j - 1)) from by ring,
    Nat.mul_mod_right]

theorem testBit_mul_pow (c k j : Nat) :
    (c * 2 ^ k).testBit j = if j < k then false else c.testBit (j - k) := by
  by_cases hj : j < k
  · rw [if_pos hj, Nat.testBit_to_div_mod]
    have hexp : k - j + j = k := by omega
    have h1 : c * 2 ^ k = c * 2 ^ (k - j) * 2 ^ j := by
      rw [Nat.mul_assoc, ← pow_add, hexp]
    rw [h1, Nat.mul_div_cancel _ (Nat.pos_pow_of_pos _ (by omega))]
    simp [mul_pow_mod_two c k j hj]
  · rw [if_neg hj, Nat.testBit_to_div_mod, Nat.testBit_to_div_mod]
    have hexp : k + (j - k) = j := by omega
    have h1 : (2 : Nat) ^ j = 2 ^ k * 2 ^ (j - k) := by
      rw [← pow_add, hexp]
    rw [h1, ← Nat.div_div_eq_div_mul,
      Nat.mul_div_cancel _ (Nat.pos_pow_of_pos _ (by omega))]

theorem testBit_add_mul_pow (a c k j : Nat) (ha : a < 2 ^ k) :
    (a + c * 2 ^ k).testBit j = if j < k then a.testBit j else c.testBit (j - k) := by
  by_cases hj : j < k
  · rw [if_pos hj, Nat.testBit_to_div_mod, Nat.testBit_to_div_mod]
    have hexp : k - j + j = k := by omega
    have h1 : a + c * 2 ^ k = a + c * 2 ^ (k - j) * 2 ^ j := by
      rw [Nat.mul_assoc, ← pow_add, hexp]
    rw [h1, Nat.add_mul_div_right _ _ (Nat.pos_pow_of_pos _ (by omega))]
    rw [decide_eq_decide]
    have h2 := mul_pow_mod_two c k j hj
    omega
  · rw [if_neg hj, Nat.testBit_to_div_mod, Nat.testBit_to_div_mod]
    have hexp : k + (j - k) = j := by omega
    have h1 : (2 : Nat) ^ j = 2 ^ k * 2 ^ (j - k) := by
      rw [← pow_add, hexp]
    rw [h1, ← Nat.div_div_eq_div_mul]
    have h2 : (a + c * 2 ^ k) / 2 ^ k = c := by
      rw [Nat.mul_comm c, Nat.add_mul_div_left _ _ (Nat.pos_pow_of_pos _ (by omega)),
        Nat.div_eq_of_lt ha]
      omega
    rw [h2]

/-- Bitwise OR of values with disjoint bit ranges is addition. -/
theorem lor_eq_add (a c k : Nat) (ha : a < 2 ^ k) :
    a ||| (c * 2 ^ k) = a + c * 2 ^ k := by
  apply Nat.eq_of_testBit_eq
  intro j
  rw [Nat.testBit_lor, testBit_add_mul_pow a c k j ha, testBit_mul_pow]
  by_cases hj : j < k
  · rw [if_pos hj, if_pos hj]
    simp
  · rw [if_neg hj, if_neg hj]
    have : a.testBit j = false := Nat.testBit_lt_two_pow (by
      calc a < 2 ^ k := ha
        _ ≤ 2 ^ j := Nat.pow_le_pow_right (by omega) (by omega))
    rw [this]
    simp

theorem totalOnes_take_add_drop (l : List Nat) (k : Nat) :
    totalOnes (l.take k) + totalOnes (l.drop k) = totalOnes l := by
  rw [← totalOnes_append, List.take_append_drop]

theorem totalOnes_le_of_bound (l : List Nat) (h : ∀ w ∈ l, w < 2 ^ 64) :
    totalOnes l ≤ 64 * l.length := by
  induction l with
  | nil => simp [totalOnes_nil]
  | cons w l ih =>
    have hw : popcount w ≤ 64 := popcount_le_of_lt 64 w (h w (List.mem_cons_self _ _))
    have hl : totalOnes l ≤ 64 * l.length := ih (fun x hx => h x (List.mem_cons_of_mem _ hx))
    have hcons : totalOnes (w :: l) = popcount w + totalOnes l := by
      unfold totalOnes
      simp
    rw [hcons, List.length_cons]
    omega

/-- The seven (or, during construction, fewer) running block-local word
ranks of the block starting at word `8 * j` of `v`. -/
def fieldCounts (v : List Nat) (j r : Nat) : List Nat :=
  (List.range r).map (fun k => totalOnes ((v.drop (8 * j)).take (k + 1)))

/-- The per-block counts records that the builder is expected to
produce for the first `q` blocks of `v`. -/
def blocksList (v : List Nat) (q : Nat) : List Counts :=
  (List.range q).map (fun j => ⟨totalOnes (v.take (8 * j)), lowPack (fieldCounts v j 7)⟩)

theorem fieldCounts_length (v : List Nat) (j r : Nat) : (fieldCounts v j r).length = r := by
  simp [fieldCounts]

theorem fieldCounts_lt (v : List Nat) (hw : ∀ w ∈ v, w < 2 ^ 64) (j r : Nat) (hr : r ≤ 7) :
    ∀ c ∈ fieldCounts v j r, c < 2 ^ 9 := by
  intro c hc
  obtain ⟨k, hk, hc⟩ := List.mem_map.mp hc
  have hk7 : k < 7 := by
    have := List.mem_range.mp hk
    omega
  subst hc
  have hb : ∀ w ∈ (v.drop (8 * j)).take (k + 1), w < 2 ^ 64 := by
    intro w hw2
    exact hw w (List.mem_of_mem_drop (List.mem_of_mem_take hw2))
  have h1 : totalOnes ((v.drop (8 * j)).take (k + 1)) ≤
      64 * ((v.drop (8 * j)).take (k + 1)).length := totalOnes_le_of_bound _ hb
  have h2 : ((v.drop (8 * j)).take (k + 1)).length ≤ k + 1 := by
    rw [List.length_take]
    omega
  have : (64 : Nat) * (k + 1) ≤ 64 * 7 := by omega
  calc totalOnes ((v.drop (8 * j)).take (k + 1)) ≤ 64 * (k + 1) := by
        calc totalOnes _ ≤ 64 * ((v.drop (8 * j)).take (k + 1)).length := h1
          _ ≤ 64 * (k + 1) := by omega
    _ < 2 ^ 9 := by omega

theorem push_flush (b : CountsBuilder) (w : Nat) (h : b.length % 8 = 7) :
    b.push w = ⟨b.length + 1, b.counts ++ [b.accum],
      ⟨(b.rank_accum + popcount w) % 2 ^ 64, 0⟩, 0,
      (b.rank_accum + popcount w) % 2 ^ 64⟩ := by
  unfold CountsBuilder.push
  rw [if_pos (by simp [h])]

theorem push_step (b : CountsBuilder) (w : Nat) (h : b.length % 8 ≠ 7) :
    b.push w = ⟨b.length + 1, b.counts,
      ⟨b.accum._block_rank, (b.accum.word_ranks >>> 9) |||
        ((((b.block_accum + popcount w) % 2 ^ 64) <<< (9 * 6)) % 2 ^ 64)⟩,
      (b.block_accum + popcount w) % 2 ^ 64,
      (b.rank_accum + popcount w) % 2 ^ 64⟩ := by
  unfold CountsBuilder.push
  rw [if_neg (by simp [h])]

theorem fieldCounts_append (u : List Nat) (w : Nat) (j r : Nat) (h : 8 * j + r ≤ u.length) :
    fieldCounts (u ++ [w]) j r = fieldCounts u j r := by
  unfold fieldCounts
  apply List.map_congr_left
  intro k hk
  have hk' : k < r := List.mem_range.mp hk
  rw [List.drop_append_of_le_length (by omega)]
  rw [List.take_append_of_le_length (by rw [List.length_drop]; omega)]

theorem blocksList_append (u : List Nat) (w : Nat) (q : Nat) (h : 8 * q ≤ u.length + 1) :
    blocksList (u ++ [w]) q = blocksList u q := by
  unfold blocksList
  apply List.map_congr_left
  intro j hj
  have hj' : j < q := List.mem_range.mp hj
  rw [List.take_append_of_le_length (by omega)]
  rw [fieldCounts_append u w j 7 (by omega)]

theorem totalOnes_single (w : Nat) : totalOnes [w] = popcount w := by
  simp [totalOnes]

theorem totalOnes_concat (u : List Nat) (w : Nat) :
    totalOnes (u ++ [w]) = totalOnes u + popcount w := by
  rw [totalOnes_append, totalOnes_single]

/-- Closed form of the counts builder state after pushing the words of
`v` in order: the counts of every completed block have been emitted, the
accumulators carry the totals of the current partial block, and the
packed word ranks sit left-aligned in `word_ranks`. -/
theorem builder_invariant : ∀ v : List Nat, (∀ w ∈ v, w < 2 ^ 64) → totalOnes v < 2 ^ 64 →
    (List.foldl CountsBuilder.push CountsBuilder.init v).length = v.length ∧
    (List.foldl CountsBuilder.push CountsBuilder.init v).rank_accum = totalOnes v ∧
    (List.foldl CountsBuilder.push CountsBuilder.init v).block_accum =
      totalOnes (v.drop (8 * (v.length / 8))) ∧
    (List.foldl CountsBuilder.push CountsBuilder.init v).accum._block_rank =
      totalOnes (v.take (8 * (v.length / 8))) ∧
    (List.foldl CountsBuilder.push CountsBuilder.init v).accum.word_ranks =
      2 ^ (9 * (7 - v.length % 8)) * lowPack (fieldCounts v (v.length / 8) (v.length % 8)) ∧
    (List.foldl CountsBuilder.push CountsBuilder.init v).counts =
      blocksList v (v.length / 8) := by
  intro v
  induction v using List.reverseRecOn with
  | nil =>
    intro _ _
    refine ⟨rfl, rfl, rfl, rfl, ?_, rfl⟩
    simp [CountsBuilder.init, fieldCounts, lowPack_nil]
  | append_singleton u w ih =>
    intro hw hb
    have hwu : ∀ x ∈ u, x < 2 ^ 64 := fun x hx => hw x (List.mem_append_left _ hx)
    have hw64 : w < 2 ^ 64 := hw w (List.mem_append_right _ (List.mem_cons_self _ _))
    have hbu : totalOnes u < 2 ^ 64 := by
      rw [totalOnes_concat] at hb
      omega
    obtain ⟨hlen, hrank, hblock, hbr, hwr, hcounts⟩ := ih hwu hbu
    have hfold : List.foldl CountsBuilder.push CountsBuilder.init (u ++ [w]) =
        (List.foldl CountsBuilder.push CountsBuilder.init u).push w :=
      List.foldl_concat _ _ _ _
    set st := List.foldl CountsBuilder.push CountsBuilder.init u with hst
    set len := u.length with hlendef
    have hlenappend : (u ++ [w]).length = len + 1 := by simp
    have htot : totalOnes (u ++ [w]) = totalOnes u + popcount w := totalOnes_concat u w
    have hrmod : (st.rank_accum + popcount w) % 2 ^ 64 = totalOnes u + popcount w := by
      rw [hrank]
      exact Nat.mod_eq_of_lt (by omega)
    have hdropones : totalOnes (u.drop (8 * (len / 8))) ≤ totalOnes u := by
      have := totalOnes_take_add_drop u (8 * (len / 8))
      omega
    have hbmod : (st.block_accum + popcount w) % 2 ^ 64 =
        totalOnes (u.drop (8 * (len / 8))) + popcount w := by
      rw [hblock]
      exact Nat.mod_eq_of_lt (by omega)
    have hdropappend : (u ++ [w]).drop (8 * (len / 8)) = u.drop (8 * (len / 8)) ++ [w] :=
      List.drop_append_of_le_length (by omega)
    by_cases hcase : len % 8 = 7
    · -- the pushed word completes a block
      have hpush := push_flush st w (by rw [hlen]; exact hcase)
      rw [hfold, hpush, hlenappend]
      dsimp only
      have hq1 : (len + 1) / 8 = len / 8 + 1 := by omega
      have hm1 : (len + 1) % 8 = 0 := by omega
      have haccum : st.accum = (⟨totalOnes (u.take (8 * (len / 8))),
          lowPack (fieldCounts u (len / 8) 7)⟩ : Counts) := by
        have h7 : 7 - len % 8 = 0 := by omega
        have : st.accum = ⟨st.accum._block_rank, st.accum.word_ranks⟩ := rfl
        rw [this, hbr, hwr, h7, hcase]
        simp
      refine ⟨by rw [hlen], by rw [hrmod, htot], ?_, ?_, ?_, ?_⟩
      · rw [hq1]
        have : (u ++ [w]).drop (8 * (len / 8 + 1)) = [] := by
          apply List.drop_eq_nil_of_le
          simp
          omega
        rw [this, totalOnes_nil]
      · rw [hq1, hrmod]
        have htake : (u ++ [w]).take (8 * (len / 8 + 1)) = u ++ [w] := by
          apply List.take_of_length_le
          simp
          omega
        rw [htake, totalOnes_concat]
      · rw [hq1, hm1]
        have : fieldCounts (u ++ [w]) (len / 8 + 1) 0 = [] := rfl
        rw [this, lowPack_nil]
        simp
      · rw [hq1, hcounts, haccum]
        unfold blocksList
        rw [List.range_succ, List.map_append]
        congr 1
        · apply List.map_congr_left
          intro j hj
          have hj' : j < len / 8 := List.mem_range.mp hj
          rw [List.take_append_of_le_length (by omega)]
          rw [fieldCounts_append u w j 7 (by omega)]
        · simp only [List.map_cons, List.map_nil]
          rw [List.take_append_of_le_length (by omega)]
          rw [fieldCounts_append u w (len / 8) 7 (by omega)]
    · -- the pushed word extends the current partial block
      have hpush := push_step st w (by rw [hlen]; exact hcase)
      rw [hfold, hpush, hlenappend]
      dsimp only
      have hq1 : (len + 1) / 8 = len / 8 := by omega
      have hm1 : (len + 1) % 8 = len % 8 + 1 := by omega
      have hr7 : len % 8 ≤ 6 := by omega
      refine ⟨by rw [hlen], by rw [hrmod, htot], ?_, ?_, ?_, ?_⟩
      · rw [hq1, hbmod, hdropappend, totalOnes_concat]
      · rw [hq1, hbr]
        rw [List.take_append_of_le_length (by omega)]
      · rw [hq1, hm1, hwr, hbmod]
        set r := len % 8 with hrdef
        set P := lowPack (fieldCounts u (len / 8) r) with hP
        set cr := totalOnes (u.drop (8 * (len / 8))) + popcount w with hcr
        clear_value r P cr
        have hPlt : P < 2 ^ (9 * r) := by
          have h := lowPack_lt (fieldCounts u (len / 8) r)
            (fieldCounts_lt u hwu (len / 8) r (by omega))
          rw [fieldCounts_length] at h
          rw [hP]
          exact h
        have hcrlt : cr < 2 ^ 9 := by
          have hlist : ∀ x ∈ u.drop (8 * (len / 8)) ++ [w], x < 2 ^ 64 := by
            intro x hx
            rcases List.mem_append.mp hx with hx | hx
            · exact hwu x (List.mem_of_mem_drop hx)
            · simp at hx
              omega
          have h1 : totalOnes (u.drop (8 * (len / 8)) ++ [w]) ≤
              64 * (u.drop (8 * (len / 8)) ++ [w]).length := totalOnes_le_of_bound _ hlist
          have h2 : (u.drop (8 * (len / 8)) ++ [w]).length = len - 8 * (len / 8) + 1 := by
            rw [List.length_append, List.length_drop]
            rfl
          rw [totalOnes_concat] at h1
          rw [h2] at h1
          have : len - 8 * (len / 8) = r := by omega
          rw [this] at h1
          have : cr ≤ 64 * (r + 1) := by rw [hcr]; omega
          omega
        have hshl : (cr <<< (9 * 6)) % 2 ^ 64 = cr * 2 ^ 54 := by
          rw [Nat.shiftLeft_eq]
          apply Nat.mod_eq_of_lt
          calc cr * 2 ^ (9 * 6) < 2 ^ 9 * 2 ^ 54 := by
                have h96 : (9 : Nat) * 6 = 54 := by norm_num
                rw [h96]
                exact mul_lt_mul_of_pos_right hcrlt (Nat.pos_pow_of_pos _ (by omega))
            _ ≤ 2 ^ 64 := by norm_num
        have hshr : (2 ^ (9 * (7 - r)) * P) >>> 9 = 2 ^ (9 * (6 - r)) * P := by
          rw [Nat.shiftRight_eq_div_pow]
          have hexp : 9 * (7 - r) = 9 + 9 * (6 - r) := by omega
          rw [hexp, pow_add, Nat.mul_assoc,
            Nat.mul_div_cancel_left _ (Nat.pos_pow_of_pos _ (by omega))]
        have hlor : 2 ^ (9 * (6 - r)) * P ||| cr * 2 ^ 54 =
            2 ^ (9 * (6 - r)) * P + cr * 2 ^ 54 := by
          apply lor_eq_add _ _ 54
          calc 2 ^ (9 * (6 - r)) * P < 2 ^ (9 * (6 - r)) * 2 ^ (9 * r) := by
                exact mul_lt_mul_of_pos_left hPlt (Nat.pos_pow_of_pos _ (by omega))
            _ = 2 ^ 54 := by
                rw [← pow_add]
                have hexp2 : 9 * (6 - r) + 9 * r = 54 := by omega
                rw [hexp2]
        have hfc : fieldCounts (u ++ [w]) (len / 8) (r + 1) =
            fieldCounts u (len / 8) r ++ [cr] := by
          unfold fieldCounts
          rw [List.range_succ, List.map_append]
          have h1 : (List.range r).map
                (fun k => totalOnes (((u ++ [w]).drop (8 * (len / 8))).take (k + 1))) =
              (List.range r).map
                (fun k => totalOnes ((u.drop (8 * (len / 8))).take (k + 1))) := by
            apply List.map_congr_left
            intro k hk
            have hk' : k < r := List.mem_range.mp hk
            rw [List.drop_append_of_le_length (by omega)]
            rw [List.take_append_of_le_length (by rw [List.length_drop]; omega)]
          have h2 : [r].map
                (fun k => totalOnes (((u ++ [w]).drop (8 * (len / 8))).take (k + 1))) =
              [cr] := by
            simp only [List.map_cons, List.map_nil]
            rw [hdropappend]
            rw [List.take_of_length_le (by rw [List.length_append, List.length_drop]; simp; omega)]
            rw [totalOnes_concat, ← hcr]
          rw [h1, h2]
        rw [hfc, hshr, hshl, hlor]
        rw [lowPack_concat _ cr, fieldCounts_length]
        rw [Nat.mul_add, ← hP]
        have hsub : 7 - (r + 1) = 6 - r := by omega
        rw [hsub]
        have hfinal : 2 ^ (9 * (6 - r)) * (cr * 2 ^ (9 * r)) = cr * 2 ^ 54 := by
          rw [show 2 ^ (9 * (6 - r)) * (cr * 2 ^ (9 * r)) =
              cr * (2 ^ (9 * r) * 2 ^ (9 * (6 - r))) from by ring, ← pow_add]
          have hexp3 : 9 * r + 9 * (6 - r) = 54 := by omega
          rw [hexp3]
        rw [hfinal]
      · rw [hq1, hcounts]
        exact (blocksList_append u w (len / 8) (by omega)).symm

theorem totalOnes_replicate (k : Nat) : totalOnes (List.replicate k 0) = 0 := by
  induction k with
  | zero => rfl
  | succ k ih =>
    rw [List.replicate_succ]
    have : totalOnes (0 :: List.replicate k 0) = popcount 0 + totalOnes (List.replicate k 0) := by
      unfold totalOnes
      simp
    rw [this, ih, popcount_zero]

theorem totalOnes_take_padded (v : List Nat) (k m : Nat) :
    totalOnes ((v ++ List.replicate k 0).take m) = totalOnes (v.take m) := by
  by_cases hm : m ≤ v.length
  · rw [List.take_append_of_le_length hm]
  · have hm' : m = v.length + (m - v.length) := by omega
    rw [hm', List.take_append, totalOnes_append]
    rw [List.take_replicate, totalOnes_replicate]
    rw [List.take_of_length_le (by omega)]
    omega

theorem totalOnes_take_add (l : List Nat) (m n : Nat) :
    totalOnes (l.take (m + n)) = totalOnes (l.take m) + totalOnes ((l.drop m).take n) := by
  rw [List.take_add, totalOnes_append]

theorem finishAux_eq (k : Nat) : ∀ b : CountsBuilder,
    CountsBuilder.finishAux k b = (List.foldl CountsBuilder.push b (List.replicate k 0)).counts := by
  induction k with
  | zero => intro b; rfl
  | succ k ih =>
    intro b
    rw [List.replicate_succ, List.foldl_cons]
    exact ih (b.push 0)

/-- The counts array built from `v` is exactly the per-block records of
`v` padded with zero words to a whole number of blocks; in particular it
has `ceil(len / 8)` entries. -/
theorem countsBuild_spec (v : List Nat) (hw : ∀ w ∈ v, w < 2 ^ 64) (hb : totalOnes v < 2 ^ 64) :
    countsBuild v =
      blocksList (v ++ List.replicate ((8 - v.length % 8) % 8) 0) ((v.length + 7) / 8) := by
  set k := (8 - v.length % 8) % 8 with hk
  have hwpad : ∀ w ∈ v ++ List.replicate k 0, w < 2 ^ 64 := by
    intro w hwmem
    rcases List.mem_append.mp hwmem with h | h
    · exact hw w h
    · have := List.eq_of_mem_replicate h
      subst this
      exact Nat.pos_pow_of_pos _ (by omega)
  have hbpad : totalOnes (v ++ List.replicate k 0) < 2 ^ 64 := by
    rw [totalOnes_append, totalOnes_replicate]
    omega
  have hinv := builder_invariant v hw hb
  have hinvpad := builder_invariant (v ++ List.replicate k 0) hwpad hbpad
  have hlenpad : (v ++ List.replicate k 0).length = v.length + k := by simp
  unfold countsBuild CountsBuilder.finish
  rw [hinv.1, ← hk, finishAux_eq, ← List.foldl_append]
  rw [hinvpad.2.2.2.2.2, hlenpad]
  have : (v.length + k) / 8 = (v.length + 7) / 8 := by omega
  rw [this]

theorem blocksList_get (v : List Nat) (q j : Nat) (hj : j < q) :
    (blocksList v q)[j]? =
      some ⟨totalOnes (v.take (8 * j)), lowPack (fieldCounts v j 7)⟩ := by
  unfold blocksList
  rw [List.getElem?_map]
  rw [List.getElem?_range hj]
  rfl

theorem countsBuild_get (v : List Nat) (hw : ∀ w ∈ v, w < 2 ^ 64) (hb : totalOnes v < 2 ^ 64)
    (j : Nat) (hj : j < (v.length + 7) / 8) :
    (countsBuild v)[j]? =
      some ⟨totalOnes (v.take (8 * j)),
        lowPack (fieldCounts (v ++ List.replicate ((8 - v.length % 8) % 8) 0) j 7)⟩ := by
  rw [countsBuild_spec v hw hb, blocksList_get _ _ j hj, totalOnes_take_padded]

theorem countsBuild_length (v : List Nat) (hw : ∀ w ∈ v, w < 2 ^ 64)
    (hb : totalOnes v < 2 ^ 64) :
    (countsBuild v).length = (v.length + 7) / 8 := by
  rw [countsBuild_spec v hw hb]
  unfold blocksList
  simp

theorem fieldCounts_getD (v : List Nat) (j k : Nat) (hk : k < 7) :
    (fieldCounts v j 7).getD k 0 = totalOnes ((v.drop (8 * j)).take (k + 1)) := by
  unfold fieldCounts
  rw [List.getD_eq_getElem?_getD, List.getElem?_map, List.getElem?_range hk]
  rfl

theorem rank1Shift_zero : rank1Shift 0 = 63 := by decide

theorem rank1Shift_succ (k : Nat) (hk : k ≤ 6) : rank1Shift (k + 1) = 9 * k := by
  interval_cases k <;> decide

theorem hex1ff : (0x1ff : Nat) = 2 ^ 9 - 1 := by norm_num

theorem extract_lowPack (cs : List Nat) (hcs : ∀ c ∈ cs, c < 2 ^ 9) (k : Nat)
    (hk : k < cs.length) :
    (lowPack cs >>> (9 * k)) &&& 0x1ff = cs.getD k 0 := by
  rw [hex1ff, Nat.and_pow_two_sub_one_eq_mod, Nat.shiftRight_eq_div_pow]
  exact lowPack_extract cs hcs k hk

theorem lowPack_shift63 (cs : List Nat) (hcs : ∀ c ∈ cs, c < 2 ^ 9) (hlen : cs.length = 7) :
    (lowPack cs >>> 63) &&& 0x1ff = 0 := by
  have h := lowPack_lt cs hcs
  rw [hlen] at h
  have h63 : lowPack cs < 2 ^ 63 := by
    calc lowPack cs < 2 ^ (9 * 7) := h
      _ = 2 ^ 63 := by norm_num
  rw [Nat.shiftRight_eq_div_pow, Nat.div_eq_of_lt h63]
  rfl

theorem popcount_mask (w k : Nat) : popcount (w &&& ((1 <<< k) - 1)) = bitsUpto w k := by
  rw [Nat.shiftLeft_eq, one_mul, Nat.and_pow_two_sub_one_eq_mod, popcount_mod_pow]

theorem Counts.word_rank_succ (c : Counts) (k : Nat) :
    c.word_rank true (k + 1) = (c.word_ranks >>> (9 * k)) &&& 0x1ff := by
  unfold Counts.word_rank
  simp only [Nat.add_sub_cancel]
  simp

theorem Counts.word_rank_zero (c : Counts) (bit : Bool) : c.word_rank bit 0 = 0 := rfl

theorem Counts.word_rank_succ_false (c : Counts) (k : Nat) :
    c.word_rank false (k + 1) = (k + 1) * 64 - ((c.word_ranks >>> (9 * k)) &&& 0x1ff) := by
  unfold Counts.word_rank
  simp only [Nat.add_sub_cancel]
  simp

/-- Every word of the zero-padded vector is a valid `u64`. -/
theorem padded_bound (v : List Nat) (hw : ∀ w ∈ v, w < 2 ^ 64) (k : Nat) :
    ∀ w ∈ v ++ List.replicate k 0, w < 2 ^ 64 := by
  intro w hwmem
  rcases List.mem_append.mp hwmem with h | h
  · exact hw w h
  · have := List.eq_of_mem_replicate h
    subst this
    exact Nat.pos_pow_of_pos _ (by omega)

/-- Correctness of `Rank9::rank1` for a Rank9 built with `from_vec`: at
any position `i` that passes the assertion (`i ≤ bits`) and stays inside
the word buffer (`i < 64 * len`), it returns the number of set bits
below position `i`. -/
theorem Rank9.rank1_eq (v : List Nat) (hw : ∀ w ∈ v, w < 2 ^ 64) (hlen : v.length < 2 ^ 56)
    (bits i : Nat) (hbits : i ≤ bits) (hi : i < 64 * v.length) :
    (Rank9.from_vec v bits).rank1 i = some (countB (bufGet v) true i) := by
  have htot : totalOnes v ≤ 64 * v.length := totalOnes_le_of_bound v hw
  have hb : totalOnes v < 2 ^ 64 := by omega
  have hword : i / 64 < v.length := by omega
  have hblock : i / 64 / 8 < (v.length + 7) / 8 := by omega
  set vp := v ++ List.replicate ((8 - v.length % 8) % 8) 0 with hvp
  have hcs : ∀ c ∈ fieldCounts vp (i / 64 / 8) 7, c < 2 ^ 9 :=
    fieldCounts_lt vp (padded_bound v hw _) _ 7 (le_refl _)
  have hcslen : (fieldCounts vp (i / 64 / 8) 7).length = 7 := fieldCounts_length _ _ _
  simp only [Rank9.rank1, Rank9.from_vec]
  rw [if_pos hbits, Nat.min_eq_left hbits]
  rw [countsBuild_get v hw hb (i / 64 / 8) hblock]
  rw [← hvp]
  dsimp only
  have hget : v[i / 64]? = some v[i / 64] := List.getElem?_eq_getElem hword
  have hdecomp := countB_true_decomp v hw i (by omega)
  have hpartial : bitsUpto (v.getD (i / 64) 0) (i % 64) ≤ 64 :=
    le_trans (bitsUpto_le _ _) (by omega)
  have htake : totalOnes (v.take (i / 64)) + totalOnes (v.drop (i / 64)) = totalOnes v :=
    totalOnes_take_add_drop v (i / 64)
  by_cases hbw : i / 64 % 8 = 0
  · -- first word of the block: the branchless shift yields 63 and zero
    rw [hbw, rank1Shift_zero]
    rw [lowPack_shift63 _ hcs hcslen]
    rw [if_neg (by simp)]
    rw [hget]
    dsimp only
    have hw8 : 8 * (i / 64 / 8) = i / 64 := by omega
    have hsum : totalOnes (v.take (8 * (i / 64 / 8))) + 0 +
        popcount (v[i / 64] &&& ((1 <<< (i % 64)) - 1)) = countB (bufGet v) true i := by
      rw [popcount_mask, hdecomp, hw8]
      rw [getD_eq_of_lt v _ hword]
      omega
    rw [hsum]
    congr 1
    apply Nat.mod_eq_of_lt
    have := countB_le (bufGet v) true i
    omega
  · -- later word of the block: the shift selects the packed field
    obtain ⟨k, hk⟩ : ∃ k, i / 64 % 8 = k + 1 := ⟨i / 64 % 8 - 1, by omega⟩
    have hk6 : k ≤ 6 := by omega
    rw [hk, rank1Shift_succ k hk6]
    rw [extract_lowPack _ hcs k (by omega)]
    have hwr : (⟨totalOnes (v.take (8 * (i / 64 / 8))),
        lowPack (fieldCounts vp (i / 64 / 8) 7)⟩ : Counts).word_rank true (k + 1) =
        (fieldCounts vp (i / 64 / 8) 7).getD k 0 := by
      rw [Counts.word_rank_succ]
      exact extract_lowPack _ hcs k (by omega)
    rw [if_neg (by
      intro hcontra
      exact hcontra.2 hwr)]
    rw [hget]
    dsimp only
    have hfield : (fieldCounts vp (i / 64 / 8) 7).getD k 0 =
        totalOnes ((v.drop (8 * (i / 64 / 8))).take (k + 1)) := by
      rw [fieldCounts_getD vp _ k (by omega), hvp]
      rw [List.drop_append_of_le_length (by omega)]
      rw [List.take_append_of_le_length (by rw [List.length_drop]; omega)]
    have hsplit : totalOnes (v.take (i / 64)) = totalOnes (v.take (8 * (i / 64 / 8))) +
        totalOnes ((v.drop (8 * (i / 64 / 8))).take (k + 1)) := by
      have h := totalOnes_take_add v (8 * (i / 64 / 8)) (k + 1)
      rw [show 8 * (i / 64 / 8) + (k + 1) = i / 64 from by omega] at h
      exact h
    have hsum : totalOnes (v.take (8 * (i / 64 / 8))) +
        (fieldCounts vp (i / 64 / 8) 7).getD k 0 +
        popcount (v[i / 64] &&& ((1 <<< (i % 64)) - 1)) = countB (bufGet v) true i := by
      rw [hfield, popcount_mask, hdecomp, ← hsplit]
      rw [getD_eq_of_lt v _ hword]
    rw [hsum]
    congr 1
    apply Nat.mod_eq_of_lt
    have := countB_le (bufGet v) true i
    omega

/-! Correctness of the two-stage select search. -/

/-- The binary search loop, run from `lower = 0` over a monotone rank
function, either finds an exact hit or narrows down to the insertion
point. -/
theorem binarySearchGo_spec (f : Nat → Nat) (n L : Nat)
    (mono : ∀ i j, i ≤ j → j < L → f i ≤ f j) :
    ∀ lim base, base + lim ≤ L →
      (∀ j, j < base → f j < n) →
      (∀ j, base + lim ≤ j → j < L → n < f j) →
      (match binarySearchGo (fun idx => compare (f idx) n) 0 base lim with
       | Except.ok ix => ix < L ∧ f ix = n
       | Except.error b =>
           b ≤ L ∧ (∀ j, j < b → f j < n) ∧ (∀ j, b ≤ j → j < L → n < f j)) := by
  intro lim
  induction lim using Nat.strong_induction_on with
  | _ lim ih =>
    intro base hle hleft hright
    rw [binarySearchGo]
    by_cases hlim : lim > 0
    · rw [dif_pos hlim]
      have hhalf : lim >>> 1 = lim / 2 := by
        rw [Nat.shiftRight_eq_div_pow, pow_one]
      have hhalf1 : (lim - 1) >>> 1 = (lim - 1) / 2 := by
        rw [Nat.shiftRight_eq_div_pow, pow_one]
      have hix : base + lim >>> 1 < L := by omega
      rcases hcmp : compare (f (base + lim >>> 1)) n with hlt | heq | hgt
      · -- Less: f ix < n, move right
        simp only [hcmp]
        have hflt : f (base + lim >>> 1) < n := Nat.compare_eq_lt.mp hcmp
        have h := ih ((lim - 1) >>> 1) (by omega) (base + lim >>> 1 + 1)
          (by omega)
          (by
            intro j hj
            rcases Nat.lt_or_ge j base with hc | hc
            · exact hleft j hc
            · exact lt_of_le_of_lt (mono j (base + lim >>> 1) (by omega) hix) hflt)
          (by
            intro j hj hjL
            exact hright j (by omega) hjL)
        exact h
      · -- Equal: found
        simp only [hcmp]
        exact ⟨hix, Nat.compare_eq_eq.mp hcmp⟩
      · -- Greater: keep left half
        simp only [hcmp]
        have hfgt : n < f (base + lim >>> 1) := Nat.compare_eq_gt.mp hcmp
        have h := ih (lim >>> 1) (by omega) base
          (by omega)
          hleft
          (by
            intro j hj hjL
            exact lt_of_lt_of_le hfgt (mono (base + lim >>> 1) j (by omega) hjL))
        exact h
    · rw [dif_neg hlim]
      have hlim0 : lim = 0 := by omega
      refine ⟨by omega, hleft, ?_⟩
      intro j hj hjL
      exact hright j (by omega) hjL

/-- The backward scan from an exact hit stops at the last index at or
below the hit whose rank differs from `n` (it never falls through when
index 0 differs). -/
theorem selectBlockScan_spec (r : Rank9) (bit : Bool) (n : Nat)
    (h0 : (r.counts.getD 0 default).block_rank bit 0 ≠ n) :
    ∀ start, ∃ j, j ≤ start ∧ (r.counts.getD j default).block_rank bit j ≠ n ∧
      (∀ t, j < t → t ≤ start → (r.counts.getD t default).block_rank bit t = n) ∧
      selectBlockScan r bit n start = j := by
  intro start
  induction start with
  | zero =>
    refine ⟨0, le_refl _, h0, by omega, ?_⟩
    rw [selectBlockScan, if_pos h0]
  | succ s ih =>
    by_cases hcur : (r.counts.getD (s + 1) default).block_rank bit (s + 1) ≠ n
    · refine ⟨s + 1, le_refl _, hcur, by omega, ?_⟩
      rw [selectBlockScan, if_pos hcur]
    · obtain ⟨j, hj1, hj2, hj3, hj4⟩ := ih
      refine ⟨j, by omega, hj2, ?_, ?_⟩
      · intro t ht1 ht2
        rcases Nat.lt_or_ge t (s + 1) with hc | hc
        · exact hj3 t ht1 (by omega)
        · have : t = s + 1 := by omega
          subst this
          omega
      · rw [selectBlockScan, if_neg hcur, if_neg (by omega)]
        simpa using hj4

/-- A rank function has at most one index that is below `n` while all
later in-range indices are at or above `n`. -/
theorem block_unique (f : Nat → Nat) (L n B1 B2 : Nat)
    (h1a : B1 < L) (h1b : f B1 < n) (h1c : ∀ j, B1 < j → j < L → n ≤ f j)
    (h2a : B2 < L) (h2b : f B2 < n) (h2c : ∀ j, B2 < j → j < L → n ≤ f j) : B1 = B2 := by
  rcases Nat.lt_trichotomy B1 B2 with h | h | h
  · have := h1c B2 h h2a
    omega
  · exact h
  · have := h2c B1 h h1a
    omega

/-- The word scan of `Counts::select_word` returns the first index whose
next word rank reaches `n`, or 7 when none does. -/
theorem selectWordGo_spec (c : Counts) (bit : Bool) (n m : Nat) (hm : m ≤ 7)
    (hlow : ∀ t, t < m → c.word_rank bit (t + 1) < n)
    (hhit : m < 7 → n ≤ c.word_rank bit (m + 1)) :
    ∀ fuel i, i + fuel = 7 → i ≤ m → selectWordGo c bit n i fuel = m := by
  intro fuel
  induction fuel with
  | zero =>
    intro i hi7 him
    have : m = 7 := by omega
    rw [selectWordGo]
    omega
  | succ fuel ih =>
    intro i hi7 him
    rw [selectWordGo]
    rcases Nat.eq_or_lt_of_le him with heq | hlt
    · subst heq
      rw [if_pos (hhit (by omega))]
    · rw [if_neg (by
        have := hlow i hlt
        omega)]
      exact ih (i + 1) (by omega) (by omega)

theorem Counts.select_word_spec (c : Counts) (bit : Bool) (n m : Nat) (hm : m ≤ 7)
    (hlow : ∀ t, t < m → c.word_rank bit (t + 1) < n)
    (hhit : m < 7 → n ≤ c.word_rank bit (m + 1)) :
    c.select_word bit n = m :=
  selectWordGo_spec c bit n m hm hlow hhit 7 0 rfl (by omega)

/-! Bridging the stored counts to bit-level prefix counts. -/

theorem countB_add_le (f : Nat → Bool) (b : Bool) (x y : Nat) :
    countB f b (x + y) ≤ countB f b x + y := by
  induction y with
  | zero => simp
  | succ y ih =>
    rw [← Nat.add_assoc, countB_succ]
    split <;> omega

theorem bufGet_padded (v : List Nat) (k j : Nat) :
    bufGet (v ++ List.replicate k 0) j = bufGet v j := by
  unfold bufGet
  have h : (v ++ List.replicate k 0).getD (j / 64) 0 = v.getD (j / 64) 0 := by
    rw [List.getD_eq_getElem?_getD, List.getD_eq_getElem?_getD, List.getElem?_append]
    by_cases hj : j / 64 < v.length
    · rw [if_pos hj]
    · rw [if_neg hj, List.getElem?_replicate]
      rw [List.getElem?_eq_none (show v.length ≤ j / 64 by omega)]
      by_cases hk : j / 64 - v.length < k
      · rw [if_pos hk]
        rfl
      · rw [if_neg hk]
  rw [h]

theorem countB_padded (v : List Nat) (k : Nat) (b : Bool) (i : Nat) :
    countB (bufGet (v ++ List.replicate k 0)) b i = countB (bufGet v) b i := by
  unfold countB
  apply List.countP_congr
  intro j _
  rw [bufGet_padded]

/-- The padded vector has a whole number of blocks. -/
theorem padded_length (v : List Nat) :
    (v ++ List.replicate ((8 - v.length % 8) % 8) 0).length = 8 * ((v.length + 7) / 8) := by
  simp
  omega

/-- The `block_rank` field of the `j`-th stored counts record equals the
number of matching bits before the block. -/
theorem counts_block_rank_spec (v : List Nat) (hw : ∀ w ∈ v, w < 2 ^ 64)
    (hb : totalOnes v < 2 ^ 64) (bit : Bool) (B : Nat) (hB : B < (v.length + 7) / 8) :
    ((countsBuild v).getD B default).block_rank bit B = countB (bufGet v) bit (512 * B) := by
  have h8B : 8 * B + 8 ≤ 8 * ((v.length + 7) / 8) := by omega
  have h8Blen : 8 * B < v.length := by omega
  have hgetd : (countsBuild v).getD B default =
      ⟨totalOnes (v.take (8 * B)),
        lowPack (fieldCounts (v ++ List.replicate ((8 - v.length % 8) % 8) 0) B 7)⟩ := by
    rw [List.getD_eq_getElem?_getD, countsBuild_get v hw hb B hB]
    rfl
  have htrue : countB (bufGet v) true (512 * B) = totalOnes (v.take (8 * B)) := by
    have hdec := countB_true_decomp v hw (512 * B) (by omega)
    have hdiv : 512 * B / 64 = 8 * B := by omega
    have hmod : 512 * B % 64 = 0 := by omega
    rw [hdec, hdiv, hmod]
    rfl
  cases bit with
  | true =>
    rw [hgetd]
    unfold Counts.block_rank
    rw [if_pos rfl, htrue]
  | false =>
    rw [hgetd]
    unfold Counts.block_rank
    rw [if_neg (by simp)]
    have hsum := countB_true_add_false (bufGet v) (512 * B)
    dsimp only
    omega

/-- The `word_rank` lookup on the `B`-th stored counts record measures
the matching bits between the start of the block and word `i` of the
block (stated additively to stay in `Nat`). -/
theorem counts_word_rank_spec (v : List Nat) (hw : ∀ w ∈ v, w < 2 ^ 64)
    (hb : totalOnes v < 2 ^ 64) (bit : Bool) (B : Nat) (hB : B < (v.length + 7) / 8)
    (i : Nat) (hi : i ≤ 7) :
    ((countsBuild v).getD B default).word_rank bit i + countB (bufGet v) bit (512 * B) =
      countB (bufGet v) bit (512 * B + 64 * i) := by
  set vp := v ++ List.replicate ((8 - v.length % 8) % 8) 0 with hvp
  have hvplen : vp.length = 8 * ((v.length + 7) / 8) := padded_length v
  have hwp : ∀ w ∈ vp, w < 2 ^ 64 := padded_bound v hw _
  have h8B : 8 * B + 8 ≤ vp.length := by omega
  have hgetd : (countsBuild v).getD B default =
      ⟨totalOnes (v.take (8 * B)), lowPack (fieldCounts vp B 7)⟩ := by
    rw [List.getD_eq_getElem?_getD, countsBuild_get v hw hb B hB, hvp]
    rfl
  have hcs : ∀ c ∈ fieldCounts vp B 7, c < 2 ^ 9 := fieldCounts_lt vp hwp B 7 (le_refl _)
  -- prefix counts over the padded vector at 64-bit-aligned positions
  have hvpcnt : ∀ m, m ≤ vp.length →
      countB (bufGet v) true (64 * m) = totalOnes (vp.take m) := by
    intro m hm
    rw [← countB_padded v ((8 - v.length % 8) % 8) true (64 * m), ← hvp]
    have hdec := countB_true_decomp vp hwp (64 * m) (by omega)
    have hdiv : 64 * m / 64 = m := by omega
    have hmod : 64 * m % 64 = 0 := by omega
    rw [hdec, hdiv, hmod]
    rfl
  cases i with
  | zero =>
    rw [Counts.word_rank_zero]
    simp
  | succ t =>
    have ht6 : t ≤ 6 := by omega
    have hfield : (fieldCounts vp B 7).getD t 0 =
        totalOnes ((vp.drop (8 * B)).take (t + 1)) := fieldCounts_getD vp B t (by omega)
    have hsplit : totalOnes (vp.take (8 * B + (t + 1))) =
        totalOnes (vp.take (8 * B)) + totalOnes ((vp.drop (8 * B)).take (t + 1)) :=
      totalOnes_take_add vp (8 * B) (t + 1)
    have hcnt1 : countB (bufGet v) true (512 * B) = totalOnes (vp.take (8 * B)) := by
      have := hvpcnt (8 * B) (by omega)
      rw [show 64 * (8 * B) = 512 * B from by ring] at this
      exact this
    have hcnt2 : countB (bufGet v) true (512 * B + 64 * (t + 1)) =
        totalOnes (vp.take (8 * B + (t + 1))) := by
      have := hvpcnt (8 * B + (t + 1)) (by omega)
      rw [show 64 * (8 * B + (t + 1)) = 512 * B + 64 * (t + 1) from by ring] at this
      exact this
    have hwrt : (⟨totalOnes (v.take (8 * B)), lowPack (fieldCounts vp B 7)⟩ :
        Counts).word_rank true (t + 1) = (fieldCounts vp B 7).getD t 0 := by
      rw [Counts.word_rank_succ]
      exact extract_lowPack _ hcs t (by rw [fieldCounts_length]; omega)
    cases bit with
    | true =>
      rw [hgetd, hwrt, hfield, hcnt1, hcnt2, hsplit]
      omega
    | false =>
      have hfalse1 := countB_true_add_false (bufGet v) (512 * B)
      have hfalse2 := countB_true_add_false (bufGet v) (512 * B + 64 * (t + 1))
      have hmono : countB (bufGet v) true (512 * B) ≤
          countB (bufGet v) true (512 * B + 64 * (t + 1)) := countB_mono _ _ (by omega)
      rw [hgetd, Counts.word_rank_succ_false]
      have hones : (lowPack (fieldCounts vp B 7) >>> (9 * t)) &&& 0x1ff =
          (fieldCounts vp B 7).getD t 0 :=
        extract_lowPack _ hcs t (by rw [fieldCounts_length]; omega)
      dsimp only at hones ⊢
      rw [hones, hfield]
      have hdiff : totalOnes ((vp.drop (8 * B)).take (t + 1)) =
          countB (bufGet v) true (512 * B + 64 * (t + 1)) - countB (bufGet v) true (512 * B) := by
        rw [hcnt1, hcnt2, hsplit]
        omega
      rw [hdiff]
      have hstep := countB_add_le (bufGet v) true (512 * B) (64 * (t + 1))
      omega

/-- Stage 1 of laura-select: `select_block` returns the block holding
the `n`-th matching bit, i.e. the last block whose cumulative rank is
still below `n` — including when runs of non-matching bits make several
blocks share the same cumulative rank. -/
theorem Rank9.select_block_eq (v : List Nat) (hw : ∀ w ∈ v, w < 2 ^ 64)
    (hlen : v.length < 2 ^ 56) (b : Bool) (n : Nat) (h1 : 1 ≤ n)
    (B : Nat) (hB : B < (v.length + 7) / 8)
    (hlow : countB (bufGet v) b (512 * B) < n)
    (hhigh : ∀ j, B < j → j < (v.length + 7) / 8 → n ≤ countB (bufGet v) b (512 * j)) :
    (Rank9.from_vec v (64 * v.length)).select_block b n = B := by
  have htot : totalOnes v ≤ 64 * v.length := totalOnes_le_of_bound v hw
  have hb : totalOnes v < 2 ^ 64 := by omega
  have hL : (countsBuild v).length = (v.length + 7) / 8 := countsBuild_length v hw hb
  set L := (v.length + 7) / 8 with hLdef
  set g := fun idx => ((countsBuild v).getD idx default).block_rank b idx with hg
  have hgval : ∀ j, j < L → g j = countB (bufGet v) b (512 * j) := by
    intro j hj
    exact counts_block_rank_spec v hw hb b j hj
  have hmono : ∀ i j, i ≤ j → j < L → g i ≤ g j := by
    intro i j hij hj
    rw [hgval i (by omega), hgval j hj]
    exact countB_mono _ _ (by omega)
  have hg0 : g 0 = 0 := by
    rw [hgval 0 (by omega)]
    rfl
  have hchar : ∀ j, j < L → (g j < n ∧ ∀ t, j < t → t < L → n ≤ g t) → j = B := by
    intro j hj hjc
    apply block_unique g L n j B hj hjc.1 (fun t ht htL => hjc.2 t ht htL) hB
    · rw [hgval B hB]
      exact hlow
    · intro t ht htL
      rw [hgval t htL]
      exact hhigh t ht htL
  set r9 := Rank9.from_vec v (64 * v.length) with hr9
  have hcounts : r9.counts = countsBuild v := rfl
  unfold Rank9.select_block Rank9.select_block_hlpr
  rw [hcounts, hL]
  rw [show (fun idx => compare (((countsBuild v).getD idx default).block_rank b idx) n) =
      (fun idx => compare (g idx) n) from rfl]
  unfold binary_search
  have hspec := binarySearchGo_spec g n L hmono L 0 (by omega) (by omega)
    (by intro j hj1 hj2; omega)
  rcases hsearch : binarySearchGo (fun idx => compare (g idx) n) 0 0 L with i | ix
  · -- Err: the insertion point is just past the target block
    rw [hsearch] at hspec
    obtain ⟨hiL, hleft, hright⟩ := hspec
    dsimp only
    have hipos : 1 ≤ i := by
      by_contra hc
      have : i = 0 := by omega
      subst this
      have := hright 0 (by omega) (by omega)
      rw [hg0] at this
      omega
    have hwrap : (i + (2 ^ 64 - 1)) % 2 ^ 64 = i - 1 := by
      have hiub : i < 2 ^ 64 := by omega
      have h64 : i + (2 ^ 64 - 1) = (i - 1) + 2 ^ 64 := by omega
      rw [h64, Nat.add_mod_right]
      exact Nat.mod_eq_of_lt (by omega)
    rw [hwrap]
    apply hchar (i - 1) (by omega)
    constructor
    · exact hleft (i - 1) (by omega)
    · intro t ht htL
      have := hright t (by omega) htL
      omega
  · -- Ok: an exact hit; the backward scan finds the block boundary
    rw [hsearch] at hspec
    obtain ⟨hixL, hfix⟩ := hspec
    dsimp only
    have h0ne : (r9.counts.getD 0 default).block_rank b 0 ≠ n := by
      rw [hcounts]
      have : g 0 ≠ n := by omega
      exact this
    obtain ⟨j, hj1, hj2, hj3, hj4⟩ := selectBlockScan_spec r9 b n h0ne ix
    rw [hcounts] at hj2 hj3
    rw [hj4]
    have hgj : g j ≠ n := hj2
    have hgj3 : ∀ t, j < t → t ≤ ix → g t = n := hj3
    have hjix : j < ix := by
      rcases Nat.eq_or_lt_of_le hj1 with he | hl
      · exfalso
        rw [he] at hgj
        exact hgj hfix
      · exact hl
    have hgjlt : g j < n := by
      have h := hmono j (j + 1) (by omega) (by omega)
      rw [hgj3 (j + 1) (by omega) (by omega)] at h
      omega
    apply hchar j (by omega)
    refine ⟨hgjlt, ?_⟩
    intro t ht htL
    rcases Nat.lt_or_ge ix t with hc | hc
    · have := hmono ix t (by omega) htL
      omega
    · rw [hgj3 t ht (by omega)]

theorem matchCount_word (v : List Nat) (b : Bool) (q : Nat) :
    ∀ s, s ≤ 64 → matchCount (v.getD q 0) b s + countB (bufGet v) b (64 * q) =
      countB (bufGet v) b (64 * q + s) := by
  intro s
  induction s with
  | zero =>
    intro _
    rw [Nat.add_zero]
    have h0 : matchCount (v.getD q 0) b 0 = 0 := rfl
    omega
  | succ s ih =>
    intro hs
    have hbridge : bufGet v (64 * q + s) = wordBit (v.getD q 0) s := by
      unfold bufGet
      rw [show (64 * q + s) / 64 = q from by omega, show (64 * q + s) % 64 = s from by omega]
    rw [show 64 * q + (s + 1) = (64 * q + s) + 1 from by omega, countB_succ, hbridge]
    rw [matchCount_succ]
    have := ih (by omega)
    omega

/-- Correctness of `Rank9::select` for a Rank9 built with `from_vec` on
a whole number of words: it agrees with the naive select for every `n`
between 1 and the number of matching bits. -/
theorem Rank9.select_eq (v : List Nat) (hw : ∀ w ∈ v, w < 2 ^ 64) (hlen : v.length < 2 ^ 56)
    (b : Bool) (n : Nat) (h1 : 1 ≤ n) (h2 : n ≤ countB (bufGet v) b (64 * v.length)) :
    (Rank9.from_vec v (64 * v.length)).select b n = naiveSelect v (64 * v.length) b n := by
  have htot : totalOnes v ≤ 64 * v.length := totalOnes_le_of_bound v hw
  have hb : totalOnes v < 2 ^ 64 := by omega
  obtain ⟨p, hpl, hpcnt, hpbit, hpres⟩ := naiveSelect_spec v (64 * v.length) b n h1 h2
  rw [hpres]
  have hcp : countB (bufGet v) b (p + 1) = countB (bufGet v) b p + 1 :=
    countB_step_of_match _ b p hpbit
  have hq : p / 64 < v.length := by omega
  have hB : p / 512 < (v.length + 7) / 8 := by omega
  simp only [Rank9.select]
  rw [if_neg (by omega)]
  have hc512le : countB (bufGet v) b (512 * (p / 512)) ≤ countB (bufGet v) b p :=
    countB_mono _ _ (by omega)
  have hsb : (Rank9.from_vec v (64 * v.length)).select_block b n = p / 512 :=
    Rank9.select_block_eq v hw hlen b n h1 (p / 512) hB
      (by omega)
      (by
        intro j hj hjL
        have hple : p + 1 ≤ 512 * j := by omega
        have := countB_mono (bufGet v) b hple
        omega)
  rw [hsb]
  have hentry : (Rank9.from_vec v (64 * v.length)).counts[p / 512]? =
      some ((countsBuild v).getD (p / 512) default) := by
    show (countsBuild v)[p / 512]? = _
    rw [List.getD_eq_getElem?_getD, countsBuild_get v hw hb (p / 512) hB]
    rfl
  rw [hentry]
  dsimp only
  set c := (countsBuild v).getD (p / 512) default with hcdef
  have hbr : c.block_rank b (p / 512) = countB (bufGet v) b (512 * (p / 512)) :=
    counts_block_rank_spec v hw hb b (p / 512) hB
  rw [hbr]
  have hc64le : countB (bufGet v) b (64 * (p / 64)) ≤ countB (bufGet v) b p :=
    countB_mono _ _ (by omega)
  have hsw : c.select_word b (n - countB (bufGet v) b (512 * (p / 512))) = p / 64 % 8 := by
    apply Counts.select_word_spec c b _ (p / 64 % 8) (by omega)
    · intro t ht
      have hwr := counts_word_rank_spec v hw hb b (p / 512) hB (t + 1) (by omega)
      rw [← hcdef] at hwr
      have hle : 512 * (p / 512) + 64 * (t + 1) ≤ p := by omega
      have := countB_mono (bufGet v) b hle
      omega
    · intro hm7
      have hwr := counts_word_rank_spec v hw hb b (p / 512) hB (p / 64 % 8 + 1) (by omega)
      rw [← hcdef] at hwr
      have hle : p + 1 ≤ 512 * (p / 512) + 64 * (p / 64 % 8 + 1) := by omega
      have := countB_mono (bufGet v) b hle
      omega
  rw [hsw]
  have hbuf : (Rank9.from_vec v (64 * v.length)).buffer[p / 64 % 8 + 8 * (p / 512)]? =
      some v[p / 64] := by
    show v[p / 64 % 8 + 8 * (p / 512)]? = _
    rw [show p / 64 % 8 + 8 * (p / 512) = p / 64 from by omega]
    exact List.getElem?_eq_getElem hq
  rw [hbuf]
  dsimp only
  have hwrm := counts_word_rank_spec v hw hb b (p / 512) hB (p / 64 % 8) (by omega)
  rw [← hcdef] at hwrm
  rw [show 512 * (p / 512) + 64 * (p / 64 % 8) = 64 * (p / 64) from by omega] at hwrm
  have harg : n - countB (bufGet v) b (512 * (p / 512)) - c.word_rank b (p / 64 % 8) =
      n - countB (bufGet v) b (64 * (p / 64)) := by omega
  rw [harg]
  have hmc := matchCount_word v b (p / 64)
  have hmc64 := hmc 64 (le_refl _)
  have hcnthigh : countB (bufGet v) b (p + 1) ≤ countB (bufGet v) b (64 * (p / 64) + 64) :=
    countB_mono _ _ (by omega)
  obtain ⟨qb, hqb64, hqbcnt, hqbbit, hqbres⟩ :=
    u64select_spec (v.getD (p / 64) 0) b (n - countB (bufGet v) b (64 * (p / 64)))
      (by omega) (by omega)
  rw [getD_eq_of_lt v (p / 64) hq] at hqbres
  rw [hqbres]
  have hqbglobal : bufGet v (64 * (p / 64) + qb) = b := by
    unfold bufGet
    rw [show (64 * (p / 64) + qb) / 64 = p / 64 from by omega,
      show (64 * (p / 64) + qb) % 64 = qb from by omega]
    exact hqbbit
  have hcnteq : countB (bufGet v) b (64 * (p / 64) + qb + 1) = n := by
    have hstep := hmc (qb + 1) (by omega)
    rw [show 64 * (p / 64) + (qb + 1) = 64 * (p / 64) + qb + 1 from by omega] at hstep
    omega
  have hpos : 64 * (p / 64) + qb = p := by
    apply countB_match_unique (bufGet v) b _ p hqbglobal hpbit
    rw [hcnteq, hpcnt]
  dsimp only [Option.map]
  congr 1
  omega

/-! Bit iteration (`src/bits.rs`) and the wavelet tree
(`src/wavelet/mod.rs`) with its bit-vector builder (`src/build.rs`,
`src/bit_vector.rs`). -/

/-- Rust: `BitIterator` collected into a list. Each `next` yields
`!(self.x & Int::one()) == Int::zero()` — a bitwise NOT on the `tyBits`
wide integer type — then shifts `x` right by one; the counter starts at
`8 * size_of::<T>()` for `new` and at `w` for `with_width(w, x)`, so the
word is consumed from the least significant bit. -/
def bitIterList (tyBits : Nat) : Nat → Nat → List Bool
  | 0, _ => []
  | k + 1, x => (((x &&& 1) ^^^ (2 ^ tyBits - 1)) == 0) :: bitIterList tyBits k (x >>> 1)

/-- Rust: `BitIterator::new` on a `u8`. -/
def bitIterU8 (x : Nat) : List Bool := bitIterList 8 8 x

/-- State of the bit-vector builder
(`build::BitBuilder<build::VecBuilder<u64>>`). -/
structure BVBuilder where
  buffer : List Nat
  accum : Nat
  bit : Nat
  size : Nat

/-- Rust: `bit_vector::Builder::with_capacity` (state is zeroed). -/
def BVBuilder.new : BVBuilder := ⟨[], 0, 0, 0⟩

/-- Rust: `BitBuilder::push`. -/
def BVBuilder.push (s : BVBuilder) (b : Bool) : BVBuilder :=
  let accum := s.accum ||| ((if b then 1 else 0) <<< s.bit)
  let bit := s.bit + 1
  let size := s.size + 1
  if bit == 64 then ⟨s.buffer ++ [accum], 0, 0, size⟩
  else ⟨s.buffer, accum, bit, size⟩

/-- Rust: `BitBuilder::finish` followed by `bit_vector::Builder::finish`:
flush the partial word and wrap the buffer and bit size. -/
def BVBuilder.finish (s : BVBuilder) : BitVector :=
  if s.bit % 64 ≠ 0 then ⟨s.size, s.buffer ++ [s.accum]⟩ else ⟨s.size, s.buffer⟩

/-- The binary tree of `src/tree/binary/mod.rs` specialised to wavelet
use: a value with optional left and right subtrees. -/
inductive WTree (α : Type) where
  | node : α → Option (WTree α) → Option (WTree α) → WTree α

/-- Rust: `wavelet::Builder::push` — walk the bits of one symbol from
the root (`bit_to_branch`: `false ↦ Left`, `true ↦ Right`), pushing each
bit into the current node's builder and creating absent children as
fresh builders. -/
def wpush : WTree BVBuilder → List Bool → WTree BVBuilder
  | WTree.node v l r, [] => WTree.node v l r
  | WTree.node v l r, bb :: rest =>
    let v2 := v.push bb
    match bb with
    | true =>
      let child := r.getD (WTree.node BVBuilder.new none none)
      WTree.node v2 l (some (wpush child rest))
    | false =>
      let child := l.getD (WTree.node BVBuilder.new none none)
      WTree.node v2 (some (wpush child rest)) r

/-- Rust: `wavelet::Builder::finish` — `map_step` every builder to its
finished bit vector. -/
def wfinishB : WTree BVBuilder → WTree BitVector
  | WTree.node v none none => WTree.node v.finish none none
  | WTree.node v (some l) none => WTree.node v.finish (some (wfinishB l)) none
  | WTree.node v none (some r) => WTree.node v.finish none (some (wfinishB r))
  | WTree.node v (some l) (some r) =>
      WTree.node v.finish (some (wfinishB l)) (some (wfinishB r))

/-- A wavelet tree built from the bit lists of a symbol stream, starting
from `Builder::new` (a singleton fresh builder). -/
def wbuild (syms : List (List Bool)) : WTree BitVector :=
  wfinishB (syms.foldl wpush (WTree.node BVBuilder.new none none))

/-- Downward pass of `Wavelet::select`: follow the symbol's bits,
recording `(bit, node value)` at each step; an absent branch is the
source's `panic!()`. -/
def wSelectDescend : WTree BitVector → List Bool → Option (List (Bool × BitVector))
  | _, [] => some []
  | WTree.node v l r, bb :: rest =>
    match (if bb then r else l) with
    | none => none
    | some child => (wSelectDescend child rest).map (fun st => (bb, v) :: st)

/-- Upward pass of `Wavelet::select`: starting from the leaf-local
count, apply each recorded node's `select` from the deepest entry back
to the root. -/
def wSelectUp : List (Bool × BitVector) → Nat → Option Nat
  | [], n => some n
  | (bb, bv) :: rest, n => (wSelectUp rest n).bind (fun m => bv.select bb m)

/-- Rust: `impl Select<Sym> for Wavelet` — `select(sym, 0)` returns 0
before any traversal. -/
def wSelect (t : WTree BitVector) (symBits : List Bool) (n : Nat) : Option Nat :=
  if n = 0 then some 0
  else (wSelectDescend t symBits).bind (fun st => wSelectUp st n)

/-- Rust: `impl Select<T> for Vec<T>` — scan for the `n`-th occurrence
and return the position after it; running out of elements panics. -/
def vecSelectGo {α : Type} [BEq α] (el : α) : List α → Nat → Nat → Option Nat
  | [], _, _ => none
  | x :: xs, n, i =>
    if x == el then
      if n - 1 = 0 then some (i + 1) else vecSelectGo el xs (n - 1) (i + 1)
    else vecSelectGo el xs n (i + 1)

/-- Rust: `Vec::<T>::select`. -/
def vecSelect {α : Type} [BEq α] (l : List α) (el : α) (n : Nat) : Option Nat :=
  if n = 0 then some 0 else vecSelectGo el l n 0

/-! The claims. -/

/-- C1: for every Rank9 built from a vector of 64-bit words of total
bit length `bits = 64 * len`, every bit value `b`, and every position
`0 ≤ i < bits`, Rank9's `rank(b, i)` equals the naive linear rank — the
number of positions `j < i` whose stored bit equals `b`. -/
theorem claim_C1 (v : List Nat) (hw : ∀ w ∈ v, w < 2 ^ 64) (hlen : v.length < 2 ^ 56)
    (b : Bool) (i : Nat) (hi : i < 64 * v.length) :
    (Rank9.from_vec v (64 * v.length)).rank b i =
      (naiveRank v (64 * v.length) b i).map (fun k => (k : Int)) := by
  have hr1 := Rank9.rank1_eq v hw hlen (64 * v.length) i (by omega) hi
  have hnr : naiveRank v (64 * v.length) b i = some (countB (bufGet v) b i) := by
    rw [naiveRank, if_pos (by omega), Nat.min_eq_left (by omega)]
  rw [hnr]
  have hadd := countB_true_add_false (bufGet v) i
  cases b with
  | true =>
    rw [Rank9.rank, if_pos rfl, hr1]
  | false =>
    rw [Rank9.rank, if_neg (by simp), Rank9.rank0, hr1]
    have hc : ((i : Int) - (countB (bufGet v) true i : Int)) =
        ((countB (bufGet v) false i : Int)) := by omega
    show some ((i : Int) - (countB (bufGet v) true i : Int)) =
      some ((countB (bufGet v) false i : Int))
    rw [hc]

/-- Witness for C1 at a concrete input. -/
theorem claim_C1_witness :
    (Rank9.from_vec [6, 9, 12] (64 * ([6, 9, 12] : List Nat).length)).rank false 65 =
      (naiveRank [6, 9, 12] (64 * ([6, 9, 12] : List Nat).length) false 65).map
        (fun k => (k : Int)) :=
  claim_C1 [6, 9, 12] (by decide) (by decide) false 65 (by decide)

/-- C2: for every Rank9 built from a vector of 64-bit words, every bit
value `b`, and every `n` with `1 ≤ n ≤` the total count of `b`-bits,
Rank9's `select(b, n)` equals the naive select; in particular the
backward scan after an exact stage-1 hit makes select correct on runs of
non-matching bits spanning block boundaries. -/
theorem claim_C2 (v : List Nat) (hw : ∀ w ∈ v, w < 2 ^ 64) (hlen : v.length < 2 ^ 56)
    (b : Bool) (n : Nat) (h1 : 1 ≤ n) (h2 : n ≤ countB (bufGet v) b (64 * v.length)) :
    (Rank9.from_vec v (64 * v.length)).select b n = naiveSelect v (64 * v.length) b n :=
  Rank9.select_eq v hw hlen b n h1 h2

set_option maxRecDepth 100000

/-- Witness for C2 on an input whose first set bit sits after a run of
zero words spanning two whole blocks, exercising the backward scan. -/
theorem claim_C2_witness :
    (Rank9.from_vec (List.replicate 16 0 ++ [1])
        (64 * (List.replicate 16 0 ++ [1] : List Nat).length)).select true 1 =
      naiveSelect (List.replicate 16 0 ++ [1])
        (64 * (List.replicate 16 0 ++ [1] : List Nat).length) true 1 :=
  claim_C2 (List.replicate 16 0 ++ [1]) (by decide) (by decide) true 1 (by decide) (by decide)

/-- C3 (against the claim): on the wavelet tree built over
`[4, 6, 2, 7, 5, 1, 6, 2]` with the library's `u8` bit iteration and the
plain bit-vector builder, `select(2, 2)` evaluates to 2, while the naive
symbol select — and the repository's own `wavelet::test::test_select` —
give 8; the `BitIterator` value computation makes every symbol's bit
sequence all-false. -/
theorem claim_C3 :
    wSelect (wbuild ([4, 6, 2, 7, 5, 1, 6, 2].map bitIterU8)) (bitIterU8 2) 2 = some 2 ∧
    vecSelect ([4, 6, 2, 7, 5, 1, 6, 2] : List Nat) 2 2 = some 8 := by
  constructor
  · decide
  · decide

/-- C4 (against the claim): the bit iterator does yield one element per
bit of the width (8 for a `u8`, and `w` for the `with_width` variant),
but every element is `false` — even on `x = 0xFF`, whose bits are all
ones — because `next` computes `!(x & 1) == 0` with a bitwise NOT; the
iteration order is least-significant-first, not MSB-first. -/
theorem claim_C4 :
    bitIterU8 0xFF = List.replicate 8 false ∧
    (bitIterU8 0xFF).length = 8 ∧
    bitIterList 8 3 0xFF = List.replicate 3 false := by
  refine ⟨by decide, by decide, by decide⟩

/-- C5 counterexample: on `x = 0x5`, word-level select returns 1 and 3,
not the claimed 0 and 2 — it yields the position just after the `n`-th
matching bit, not the 0-based position of that bit. -/
theorem claim_C5_counterexample :
    u64select 0x5 true 1 = some 1 ∧ u64select 0x5 true 2 = some 3 ∧
    u64select 0x5 true 1 ≠ some 0 := by
  refine ⟨by decide, by decide, by decide⟩

/-- C5 (amended): for every word `x`, bit `b` and `n ≥ 1` with at least
`n` bits equal to `b` among the 64 bits of `x`, `select(x, b, n)`
returns `p + 1` where `p` is the 0-based position of the `n`-th
`b`-valued bit — the number of `b`-bits in `x[0..=p]` is `n` and
`x[p] = b`. -/
theorem claim_C5 (x : Nat) (b : Bool) (n : Nat) (h1 : 1 ≤ n) (h2 : n ≤ matchCount x b 64) :
    ∃ p, p < 64 ∧ matchCount x b (p + 1) = n ∧ wordBit x p = b ∧
      u64select x b n = some (p + 1) :=
  u64select_spec x b n h1 h2

/-- Witness for C5 at `x = 0x5`, `n = 2`. -/
theorem claim_C5_witness :
    ∃ p, p < 64 ∧ matchCount 0x5 true (p + 1) = 2 ∧ wordBit 0x5 p = true ∧
      u64select 0x5 true 2 = some (p + 1) :=
  claim_C5 0x5 true 2 (by decide) (by decide)

/-- C6 counterexample: on one stored word (`bits = 64`), `rank1(bits)`
panics in both structures instead of returning the total number of ones
(which is 2 for the word `3`): `BitVector::rank1` asserts `n < bits`
strictly, and `Rank9::rank1` indexes `buffer[bits / 64]` out of
range. -/
theorem claim_C6_counterexample :
    (BitVector.from_vec [3] 64).rank1 64 = none ∧
    (Rank9.from_vec [3] 64).rank1 64 = none := by
  refine ⟨by decide, by decide⟩

/-- C6 (amended): `rank1(0) = 0` holds for both the plain `BitVector`
and `Rank9`, and every strictly in-range `i < bits` is accepted and
returns the exact prefix count of ones; but the claimed inclusive upper
bound is wrong — at `i = bits` (with `bits = 64·words`) `rank1` panics
in both structures instead of returning the total number of ones. -/
theorem claim_C6 (v : List Nat) (hw : ∀ w ∈ v, w < 2 ^ 64) (hlen : v.length < 2 ^ 56)
    (i : Nat) (hi : i < 64 * v.length) :
    (BitVector.from_vec v (64 * v.length)).rank1 0 = some 0 ∧
    (Rank9.from_vec v (64 * v.length)).rank1 0 = some 0 ∧
    (BitVector.from_vec v (64 * v.length)).rank1 i = some (countB (bufGet v) true i) ∧
    (Rank9.from_vec v (64 * v.length)).rank1 i = some (countB (bufGet v) true i) ∧
    (BitVector.from_vec v (64 * v.length)).rank1 (64 * v.length) = none := by
  refine ⟨?_, ?_, ?_, ?_, ?_⟩
  · have h := BitVector.rank1_eval v hw 0 (by omega)
    rw [h]
    rfl
  · have h := Rank9.rank1_eq v hw hlen (64 * v.length) 0 (by omega) (by omega)
    rw [h]
    rfl
  · exact BitVector.rank1_eval v hw i hi
  · exact Rank9.rank1_eq v hw hlen (64 * v.length) i (by omega) hi
  · rw [BitVector.rank1]
    simp only [BitVector.from_vec]
    rw [if_neg (by omega)]

/-- Witness for C6 at `v = [3]`, `i = 1`. -/
theorem claim_C6_witness :
    (BitVector.from_vec [3] (64 * ([3] : List Nat).length)).rank1 0 = some 0 ∧
    (Rank9.from_vec [3] (64 * ([3] : List Nat).length)).rank1 0 = some 0 ∧
    (BitVector.from_vec [3] (64 * ([3] : List Nat).length)).rank1 1 =
      some (countB (bufGet [3]) true 1) ∧
    (Rank9.from_vec [3] (64 * ([3] : List Nat).length)).rank1 1 =
      some (countB (bufGet [3]) true 1) ∧
    (BitVector.from_vec [3] (64 * ([3] : List Nat).length)).rank1
      (64 * ([3] : List Nat).length) = none :=
  claim_C6 [3] (by decide) (by decide) 1 (by decide)

/-- C7: `select(b, 0) = 0` by the "position before the first occurrence"
convention, for the plain `BitVector`, for `Rank9`, and for the wavelet
tree — each implementation returns 0 immediately on `n = 0`. -/
theorem claim_C7 (bv : BitVector) (r : Rank9) (t : WTree BitVector)
    (symBits : List Bool) (b : Bool) :
    bv.select b 0 = some 0 ∧ r.select b 0 = some 0 ∧
    wSelect t symBits 0 = some 0 :=
  ⟨rfl, rfl, rfl⟩

/-- C8: the counters built from any word stream have length
`⌈word_count / 8⌉` (`finish` zero-pads the trailing partial block);
`_block_rank` is non-decreasing from one block to the next; and within a
block the packed 9-bit word ranks are non-decreasing in `k` and bounded
by `8·64`. -/
theorem claim_C8 (v : List Nat) (hw : ∀ w ∈ v, w < 2 ^ 64) (hlen : v.length < 2 ^ 56)
    (B k : Nat) (hk : k ≤ 6) :
    (countsBuild v).length = (v.length + 7) / 8 ∧
    (B + 1 < (v.length + 7) / 8 →
      ((countsBuild v).getD B default)._block_rank ≤
        ((countsBuild v).getD (B + 1) default)._block_rank) ∧
    (B < (v.length + 7) / 8 →
      ((countsBuild v).getD B default).word_rank true k ≤
        ((countsBuild v).getD B default).word_rank true (k + 1) ∧
      ((countsBuild v).getD B default).word_rank true (k + 1) ≤ 8 * 64) := by
  have htot : totalOnes v ≤ 64 * v.length := totalOnes_le_of_bound v hw
  have hb : totalOnes v < 2 ^ 64 := by omega
  refine ⟨countsBuild_length v hw hb, ?_, ?_⟩
  · intro hB1
    have h1 := counts_block_rank_spec v hw hb true B (by omega)
    have h2 := counts_block_rank_spec v hw hb true (B + 1) hB1
    have e1 : ((countsBuild v).getD B default).block_rank true B =
        ((countsBuild v).getD B default)._block_rank := by
      rw [Counts.block_rank, if_pos rfl]
    have e2 : ((countsBuild v).getD (B + 1) default).block_rank true (B + 1) =
        ((countsBuild v).getD (B + 1) default)._block_rank := by
      rw [Counts.block_rank, if_pos rfl]
    have hm := countB_mono (bufGet v) true (show 512 * B ≤ 512 * (B + 1) by omega)
    omega
  · intro hB
    constructor
    · have h1 := counts_word_rank_spec v hw hb true B hB k (by omega)
      have h2 := counts_word_rank_spec v hw hb true B hB (k + 1) (by omega)
      have hm := countB_mono (bufGet v) true
        (show 512 * B + 64 * k ≤ 512 * B + 64 * (k + 1) by omega)
      omega
    · have h2 := counts_word_rank_spec v hw hb true B hB (k + 1) (by omega)
      have hle := countB_add_le (bufGet v) true (512 * B) (64 * (k + 1))
      omega

/-- Witness for C8 at nine words (two blocks, the second one padded),
`B = 0`, `k = 3`. -/
theorem claim_C8_witness :
    (countsBuild (List.replicate 9 0)).length = ((List.replicate 9 0 : List Nat).length + 7) / 8 ∧
    (0 + 1 < ((List.replicate 9 0 : List Nat).length + 7) / 8 →
      ((countsBuild (List.replicate 9 0)).getD 0 default)._block_rank ≤
        ((countsBuild (List.replicate 9 0)).getD (0 + 1) default)._block_rank) ∧
    (0 < ((List.replicate 9 0 : List Nat).length + 7) / 8 →
      ((countsBuild (List.replicate 9 0)).getD 0 default).word_rank true 3 ≤
        ((countsBuild (List.replicate 9 0)).getD 0 default).word_rank true (3 + 1) ∧
      ((countsBuild (List.replicate 9 0)).getD 0 default).word_rank true (3 + 1) ≤ 8 * 64) :=
  claim_C8 (List.replicate 9 0) (by decide) (by decide) 0 3 (by decide)

/-- C9: `rank1` is monotone on both structures — for `i ≤ j`, both in
range, both calls succeed and `rank1(i) ≤ rank1(j)` — and
`rank1(i) + rank0(i) = i`, `rank0` being computed as the signed
difference `i - rank1(i)`. -/
theorem claim_C9 (v : List Nat) (hw : ∀ w ∈ v, w < 2 ^ 64) (hlen : v.length < 2 ^ 56)
    (i j : Nat) (hij : i ≤ j) (hj : j < 64 * v.length) :
    (BitVector.from_vec v (64 * v.length)).rank1 i = some (countB (bufGet v) true i) ∧
    (BitVector.from_vec v (64 * v.length)).rank1 j = some (countB (bufGet v) true j) ∧
    (Rank9.from_vec v (64 * v.length)).rank1 i = some (countB (bufGet v) true i) ∧
    (Rank9.from_vec v (64 * v.length)).rank1 j = some (countB (bufGet v) true j) ∧
    countB (bufGet v) true i ≤ countB (bufGet v) true j ∧
    (BitVector.from_vec v (64 * v.length)).rank0 i =
      some ((i : Int) - (countB (bufGet v) true i : Int)) ∧
    (Rank9.from_vec v (64 * v.length)).rank0 i =
      some ((i : Int) - (countB (bufGet v) true i : Int)) ∧
    (countB (bufGet v) true i : Int) +
      ((i : Int) - (countB (bufGet v) true i : Int)) = (i : Int) := by
  have hbi := BitVector.rank1_eval v hw i (by omega)
  have hbj := BitVector.rank1_eval v hw j hj
  have hri := Rank9.rank1_eq v hw hlen (64 * v.length) i (by omega) (by omega)
  have hrj := Rank9.rank1_eq v hw hlen (64 * v.length) j (by omega) hj
  refine ⟨hbi, hbj, hri, hrj, countB_mono _ _ hij, ?_, ?_, by ring⟩
  · rw [BitVector.rank0, hbi]
    rfl
  · rw [Rank9.rank0, hri]
    rfl

/-- Witness for C9 at `v = [1, 0, 5]`, `i = 3`, `j = 100`. -/
theorem claim_C9_witness :
    (BitVector.from_vec [1, 0, 5] (64 * ([1, 0, 5] : List Nat).length)).rank1 3 =
      some (countB (bufGet [1, 0, 5]) true 3) ∧
    (BitVector.from_vec [1, 0, 5] (64 * ([1, 0, 5] : List Nat).length)).rank1 100 =
      some (countB (bufGet [1, 0, 5]) true 100) ∧
    (Rank9.from_vec [1, 0, 5] (64 * ([1, 0, 5] : List Nat).length)).rank1 3 =
      some (countB (bufGet [1, 0, 5]) true 3) ∧
    (Rank9.from_vec [1, 0, 5] (64 * ([1, 0, 5] : List Nat).length)).rank1 100 =
      some (countB (bufGet [1, 0, 5]) true 100) ∧
    countB (bufGet [1, 0, 5]) true 3 ≤ countB (bufGet [1, 0, 5]) true 100 ∧
    (BitVector.from_vec [1, 0, 5] (64 * ([1, 0, 5] : List Nat).length)).rank0 3 =
      some ((3 : Int) - (countB (bufGet [1, 0, 5]) true 3 : Int)) ∧
    (Rank9.from_vec [1, 0, 5] (64 * ([1, 0, 5] : List Nat).length)).rank0 3 =
      some ((3 : Int) - (countB (bufGet [1, 0, 5]) true 3 : Int)) ∧
    (countB (bufGet [1, 0, 5]) true 3 : Int) +
      ((3 : Int) - (countB (bufGet [1, 0, 5]) true 3 : Int)) = (3 : Int) :=
  claim_C9 [1, 0, 5] (by decide) (by decide) 3 100 (by decide) (by decide)

/-- C10: the `Access<bool>` implementation for `u64` returns `false` for
every index `n < 64` regardless of the word's contents, and only
consults the stored bit `(x >> n) & 1` when `n ≥ 64`. -/
theorem claim_C10 (x n m : Nat) (h : n < 64) (hm : 64 ≤ m) :
    u64get x n = false ∧ u64get x m = ((x >>> m) &&& 1 == 1) := by
  constructor
  · rw [u64get, if_pos h]
  · rw [u64get, if_neg (by omega)]

/-- Witness for C10 at `x = 2^63`, `n = 63`, `m = 64`. -/
theorem claim_C10_witness :
    u64get (2 ^ 63) 63 = false ∧
    u64get (2 ^ 63) 64 = ((2 ^ 63 >>> 64) &&& 1 == 1) :=
  claim_C10 (2 ^ 63) 63 64 (by decide) (by decide)

end Succinct
